import Mathlib

/-!
Verification of the StructTrace-Engine core against its specification.

The definitions below are a shallow embedding of the Go backend:
* `backend/datastructures/snapshot.go` — step kinds and snapshot records;
* `backend/datastructures/rbtree.go`   — the traced red-black tree;
* `backend/datastructures/avltree.go`  — the traced AVL tree;
* `backend/datastructures/graph.go`    — the traced graph and Dijkstra;
* `backend/benchmark/runner.go`        — the concurrent benchmark harness.

Pointer-based trees are embedded as inductive trees; the red-black tree's
parent pointers are represented by an explicit context (zipper) path, so the
iterative fixup loops become structural recursion over that path.  Step
records keep the fields the specification's claims speak about (the kind and
the primary node id for tree steps; the kind, selected node and carried path
for graph steps); the human-readable description strings and the cosmetic
x/y layout coordinates (float64) are omitted.
-/

namespace StructTrace

/-- Step kinds, from `snapshot.go` (`StepType` constants). -/
inductive StepType where
  | insert | delete | rotateLeft | rotateRight | colorChange | compare
  | visit | found | notFound | updateDist | selectNode | markVisited
  | rebalance | complete
deriving DecidableEq, Repr

/-- A tree step: kind plus the primary node id (`Step.Type`, `Step.NodeID`).
The description string, highlight list and embedded snapshot are omitted. -/
structure TStep where
  type : StepType
  nodeId : Option Int
deriving DecidableEq, Repr

/-! ## Red-black tree (`rbtree.go`) -/

/-- Node color (`NodeColor`). -/
inductive Color where
  | red | black
deriving DecidableEq, Repr

/-- A red-black subtree.  `nil` stands for the shared sentinel `t.NIL`
(which carries color black and id -1); `node` carries the `ID`, `Color`,
`Left`, `Value` and `Right` fields of `RBNode`.  Parent pointers are
represented by the context path `Ctx` below. -/
inductive RBT where
  | nil
  | node (id : Int) (color : Color) (l : RBT) (value : Int) (r : RBT)
deriving DecidableEq, Repr

/-- Color of a subtree's root; the sentinel is black (`NewRedBlackTree`). -/
def RBT.rootColor : RBT → Color
  | .nil => .black
  | .node _ c _ _ _ => c

/-- Id of a subtree's root; the sentinel carries id -1 (`NewRedBlackTree`). -/
def RBT.rootId : RBT → Int
  | .nil => -1
  | .node i _ _ _ _ => i

/-- Number of stored nodes (the sentinel is not a stored node). -/
def RBT.size : RBT → Nat
  | .nil => 0
  | .node _ _ l _ r => l.size + r.size + 1

/-- How many stored nodes hold the key `k`. -/
def RBT.keyCount : RBT → Int → Nat
  | .nil, _ => 0
  | .node _ _ l v r, k => l.keyCount k + r.keyCount k + (if v = k then 1 else 0)

/-- Descent direction taken at a node. -/
inductive Dir where
  | left | right
deriving DecidableEq, Repr

/-- One ancestor on the path from the current subtree to the root: the
side `d` of this ancestor where the current subtree hangs, the ancestor's
`ID`, `Color` and `Value`, and the subtree `sib` on its other side.  A list
of contexts (innermost first) is the functional image of the `Parent`
pointer chain of `rbtree.go`. -/
structure Ctx where
  d : Dir
  id : Int
  color : Color
  value : Int
  sib : RBT
deriving DecidableEq, Repr

/-- Reattach a subtree under one ancestor. -/
def Ctx.link (c : Ctx) (t : RBT) : RBT :=
  match c.d with
  | .left => .node c.id c.color t c.value c.sib
  | .right => .node c.id c.color c.sib c.value t

/-- Reattach a subtree under a whole ancestor path (innermost context
first), recovering the full tree. -/
def plug (t : RBT) : List Ctx → RBT
  | [] => t
  | c :: rest => plug (c.link t) rest

/-- BST descent of `RedBlackTree.Insert` (the `for x != t.NIL` loop):
walks down comparing the new value, emitting one Compare step per node
visited, and returns the ancestor path of the insertion point together
with the emitted steps.  Equal keys descend to the right, exactly as the
source's `if z.Value < x.Value { left } else { right }`. -/
def descend : RBT → Int → List Ctx → List TStep → List Ctx × List TStep
  | .nil, _, path, steps => (path, steps)
  | .node i c l x r, v, path, steps =>
    if v < x then
      descend l v (⟨.left, i, c, x, r⟩ :: path) (steps ++ [⟨.compare, some i⟩])
    else
      descend r v (⟨.right, i, c, x, l⟩ :: path) (steps ++ [⟨.compare, some i⟩])

/-- The `if t.Root.Color == Red` epilogue of `insertFixup`: force the root
black, emitting a color-change step when it was red. -/
def blackenRoot : RBT → RBT × List TStep
  | .nil => (.nil, [])
  | .node i c l v r =>
    if c = .red then (.node i .black l v r, [⟨.colorChange, some i⟩])
    else (.node i c l v r, [])

/-- `RedBlackTree.insertFixup`, on the zipper: `z` is the subtree rooted at
the current fixup node, `path` its ancestor chain (innermost first).  The
loop guard `z.Parent != t.NIL && z.Parent.Color == Red` becomes the match
on the path head's color; the uncle is the grandparent context's `sib`.
Each branch emits the same steps, in the same order, as the source:
Case 1 a rebalance and a color-change step, Case 2 a rebalance and the
left/right-rotation step, Case 3 a rebalance, a color-change and the
rotation at the grandparent.  A red parent that is the root would make the
source dereference the sentinel's nil children and crash; that state is
unreachable from trees built by `Insert` (the root is black), and is
modelled as a loop exit. -/
def insertFixup (z : RBT) (path : List Ctx) (steps : List TStep) :
    RBT × List TStep :=
  match path with
  | [] =>
    ((blackenRoot z).1, steps ++ (blackenRoot z).2)
  | p :: rest =>
    if p.color = .red then
      match rest with
      | [] =>
        ((blackenRoot (plug z [p])).1, steps ++ (blackenRoot (plug z [p])).2)
      | g :: rest2 =>
        match g.d with
        | .left =>
          -- parent is the grandparent's left child; uncle is its right
          match g.sib with
          | .node ui .red ul uv ur =>
            -- Case 1: uncle red — recolor parent/uncle black, grandparent red
            let s1 : List TStep :=
              [⟨.rebalance, some z.rootId⟩, ⟨.colorChange, some g.id⟩]
            let pB : RBT :=
              match p.d with
              | .left => .node p.id .black z p.value p.sib
              | .right => .node p.id .black p.sib p.value z
            let z2 : RBT := .node g.id .red pB g.value (.node ui .black ul uv ur)
            insertFixup z2 rest2 (steps ++ s1)
          | _ =>
            -- uncle black (or sentinel)
            match p.d with
            | .left =>
              -- Case 3: z is an outer (left) child — recolor then rightRotate
              let s3 : List TStep :=
                [⟨.rebalance, some z.rootId⟩, ⟨.colorChange, some p.id⟩,
                 ⟨.rotateRight, some g.id⟩]
              let res : RBT :=
                .node p.id .black z p.value (.node g.id .red p.sib g.value g.sib)
              ((blackenRoot (plug res rest2)).1,
                steps ++ s3 ++ (blackenRoot (plug res rest2)).2)
            | .right =>
              -- Case 2 (z inner): z = z.Parent; leftRotate — then Case 3
              match z with
              | .node zi _zc zl zv zr =>
                let s2 : List TStep :=
                  [⟨.rebalance, some p.id⟩, ⟨.rotateLeft, some p.id⟩]
                let s3 : List TStep :=
                  [⟨.rebalance, some p.id⟩, ⟨.colorChange, some zi⟩,
                   ⟨.rotateRight, some g.id⟩]
                let res : RBT :=
                  .node zi .black (.node p.id p.color p.sib p.value zl) zv
                    (.node g.id .red zr g.value g.sib)
                ((blackenRoot (plug res rest2)).1,
                  steps ++ s2 ++ s3 ++ (blackenRoot (plug res rest2)).2)
              | .nil =>
                -- the fixup node is always a real node; unreachable
                ((blackenRoot (plug z (p :: g :: rest2))).1,
                  steps ++ (blackenRoot (plug z (p :: g :: rest2))).2)
        | .right =>
          -- mirror cases: parent is the grandparent's right child
          match g.sib with
          | .node ui .red ul uv ur =>
            let s1 : List TStep :=
              [⟨.rebalance, some z.rootId⟩, ⟨.colorChange, some g.id⟩]
            let pB : RBT :=
              match p.d with
              | .left => .node p.id .black z p.value p.sib
              | .right => .node p.id .black p.sib p.value z
            let z2 : RBT := .node g.id .red (.node ui .black ul uv ur) g.value pB
            insertFixup z2 rest2 (steps ++ s1)
          | _ =>
            match p.d with
            | .right =>
              -- Case 3 (mirror): z outer (right) child — recolor then leftRotate
              let s3 : List TStep :=
                [⟨.rebalance, some z.rootId⟩, ⟨.colorChange, some p.id⟩,
                 ⟨.rotateLeft, some g.id⟩]
              let res : RBT :=
                .node p.id .black (.node g.id .red g.sib g.value p.sib) p.value z
              ((blackenRoot (plug res rest2)).1,
                steps ++ s3 ++ (blackenRoot (plug res rest2)).2)
            | .left =>
              -- Case 2 (mirror): z = z.Parent; rightRotate — then Case 3
              match z with
              | .node zi _zc zl zv zr =>
                let s2 : List TStep :=
                  [⟨.rebalance, some p.id⟩, ⟨.rotateRight, some p.id⟩]
                let s3 : List TStep :=
                  [⟨.rebalance, some p.id⟩, ⟨.colorChange, some zi⟩,
                   ⟨.rotateLeft, some g.id⟩]
                let res : RBT :=
                  .node zi .black (.node g.id .red g.sib g.value zl) zv
                    (.node p.id p.color zr p.value p.sib)
                ((blackenRoot (plug res rest2)).1,
                  steps ++ s2 ++ s3 ++ (blackenRoot (plug res rest2)).2)
              | .nil =>
                ((blackenRoot (plug z (p :: g :: rest2))).1,
                  steps ++ (blackenRoot (plug z (p :: g :: rest2))).2)
    else
      ((blackenRoot (plug z path)).1, steps ++ (blackenRoot (plug z path)).2)

/-- The aggregate `RedBlackTree`: root and the monotonic id counter. -/
structure RedBlackTree where
  root : RBT
  nextID : Int
deriving DecidableEq, Repr

/-- `NewRedBlackTree`. -/
def rbNew : RedBlackTree := ⟨.nil, 0⟩

/-- `RedBlackTree.Insert`: create the red node `z`, BST-descend (Compare
steps), place it (an Insert step), run `insertFixup`, emit the final
Complete step.  Always reports success. -/
def rbInsert (t : RedBlackTree) (v : Int) : RedBlackTree × List TStep :=
  let zid := t.nextID
  let dz := descend t.root v [] [⟨.insert, some zid⟩]
  let z : RBT := .node zid .red .nil v .nil
  let fz := insertFixup z dz.1 (dz.2 ++ [⟨.insert, some zid⟩])
  (⟨fz.1, t.nextID + 1⟩, fz.2 ++ [⟨.complete, none⟩])

/-- Fold a list of inserted keys from the empty red-black tree. -/
def rbInsertAll (vs : List Int) : RedBlackTree :=
  vs.foldl (fun t v => (rbInsert t v).1) rbNew

/-- `RedBlackTree.Search`: descend comparing (Compare step per node),
ending in a Found step with success or a NotFound step with failure. -/
def rbSearchGo : RBT → Int → List TStep → Bool × List TStep
  | .nil, _, steps => (false, steps ++ [⟨.notFound, none⟩])
  | .node i _ l x r, v, steps =>
    let steps2 := steps ++ [⟨.compare, some i⟩]
    if v = x then (true, steps2 ++ [⟨.found, some i⟩])
    else if v < x then rbSearchGo l v steps2
    else rbSearchGo r v steps2

def rbSearch (t : RedBlackTree) (v : Int) : Bool × List TStep :=
  rbSearchGo t.root v []

/-! ## Red-black invariants (spec section 3 / section 8) -/

/-- No red node has a red child (a `nil` child counts as black). -/
def RedSep : RBT → Prop
  | .nil => True
  | .node _ c l _ r =>
    (c = .red → l.rootColor = .black ∧ r.rootColor = .black) ∧ RedSep l ∧ RedSep r

instance RedSep.dec : (t : RBT) → Decidable (RedSep t)
  | .nil => .isTrue trivial
  | .node _ c l _ r =>
    haveI := RedSep.dec l
    haveI := RedSep.dec r
    show Decidable ((c = .red → l.rootColor = .black ∧ r.rootColor = .black)
      ∧ RedSep l ∧ RedSep r) from inferInstance

/-- Black height: `some n` iff every path from this subtree's root down to
a sentinel position passes through exactly `n` black nodes. -/
def bh : RBT → Option Nat
  | .nil => some 0
  | .node _ c l _ r =>
    match bh l, bh r with
    | some m, some n =>
      if m = n then some (m + (if c = .black then 1 else 0)) else none
    | _, _ => none

/-- The three red-black invariants of the spec: the root is black, no red
node has a red child, and all root-to-sentinel paths agree on their count
of black nodes. -/
def ValidRB (t : RBT) : Prop :=
  t.rootColor = .black ∧ RedSep t ∧ ∃ n, bh t = some n

/-- Color of the innermost ancestor (black when there is none: the fixup
loop treats the sentinel parent of the root as black). -/
def headColor : List Ctx → Color
  | [] => .black
  | c :: _ => c.color

/-- Validity of an ancestor path with respect to black height `n` of the
subtree at the hole: each sibling subtree is internally valid with the
matching black height, and a red ancestor has a black-rooted sibling and a
black parent. -/
def pathValid : List Ctx → Nat → Prop
  | [], _ => True
  | c :: rest, n =>
    RedSep c.sib ∧ bh c.sib = some n ∧
    (c.color = .red → c.sib.rootColor = .black) ∧
    (c.color = .red → headColor rest = .black) ∧
    pathValid rest (n + (if c.color = .black then 1 else 0))

/-- `RedBlackTree.searchNode`, as a zipper descent: the ancestor path and
subtree of the node holding `v`, or `none` when absent. -/
def findZ : RBT → Int → List Ctx → Option (List Ctx × RBT)
  | .nil, _, _ => none
  | .node i c l x r, v, path =>
    if v = x then some (path, .node i c l x r)
    else if v < x then findZ l v (⟨.left, i, c, x, r⟩ :: path)
    else findZ r v (⟨.right, i, c, x, l⟩ :: path)

/-- `RedBlackTree.minimum`, returning the leftmost node with its ancestor
path (relative to the subtree it came from). -/
def findMinPath : RBT → List Ctx → List Ctx × RBT
  | .nil, path => (path, .nil)
  | .node i c l x r, path =>
    match l with
    | .nil => (path, .node i c l x r)
    | .node .. => findMinPath l (⟨.left, i, c, x, r⟩ :: path)

/-- Repaint a subtree's root.  Painting the sentinel is a no-op here; the
source would mutate the shared sentinel's color field, which only happens
in delete-fixup states unreachable under the red-black invariants. -/
def paint (c : Color) : RBT → RBT
  | .nil => .nil
  | .node i _ l v r => .node i c l v r

/-- Left child, with the sentinel for nil (the source reads `w.Left`
through the sentinel's nil pointer only in unreachable states). -/
def childL : RBT → RBT
  | .nil => .nil
  | .node _ _ l _ _ => l

def childR : RBT → RBT
  | .nil => .nil
  | .node _ _ _ _ r => r

/-- Cases 2-4 of `RedBlackTree.deleteFixup` for one loop iteration, on the
zipper (`x` the current subtree, `p` its parent context, sibling `p.sib`).
Returns `inl` with the new current subtree when Case 2 recolors and moves
up, `inr` with the rebuilt subtree replacing `p`'s position when Cases 3/4
terminate the loop.  Step emission follows the source order: a Rebalance
step per case, a ColorChange step after recoloring, rotation steps from
inside the rotate helpers. -/
def dfixCases (x : RBT) (p : Ctx) : (RBT × List TStep) ⊕ (RBT × List TStep) :=
  let w := p.sib
  if (childL w).rootColor = .black ∧ (childR w).rootColor = .black then
    -- Case 2: sibling black with two black children
    .inl ((match p.d with
      | .left => RBT.node p.id p.color x p.value (paint .red w)
      | .right => RBT.node p.id p.color (paint .red w) p.value x),
      [⟨.rebalance, some w.rootId⟩, ⟨.colorChange, some w.rootId⟩])
  else
    match p.d with
    | .left =>
      let ws :=
        if (childR w).rootColor = .black then
          -- Case 3: sibling's far (right) child black, near child red
          match w with
          | .node wid _ (.node wlid _ wla wlv wlb) wv wr =>
            (RBT.node wlid .black wla wlv (.node wid .red wlb wv wr),
              [⟨.rebalance, some wid⟩, ⟨.colorChange, some wid⟩,
               ⟨.rotateRight, some wid⟩])
          | _ => (w, [])
        else (w, [])
      match ws.1 with
      | .node wid _ wl wv (.node wrid _ wrl wrv wrr) =>
        -- Case 4: recolor and rotate left at the parent, then stop
        .inr (.node wid p.color (.node p.id .black x p.value wl) wv
            (.node wrid .black wrl wrv wrr),
          ws.2 ++ [⟨.rebalance, some wid⟩, ⟨.colorChange, some wid⟩,
            ⟨.rotateLeft, some p.id⟩])
      | _ =>
        -- unreachable: after Case 3 the far child is red
        .inr ((match p.d with
          | .left => RBT.node p.id p.color x p.value ws.1
          | .right => RBT.node p.id p.color ws.1 p.value x), ws.2)
    | .right =>
      let ws :=
        if (childL w).rootColor = .black then
          match w with
          | .node wid _ wl wv (.node wrid _ wra wrv wrb) =>
            (RBT.node wrid .black (.node wid .red wl wv wra) wrv wrb,
              [⟨.rebalance, some wid⟩, ⟨.colorChange, some wid⟩,
               ⟨.rotateLeft, some wid⟩])
          | _ => (w, [])
        else (w, [])
      match ws.1 with
      | .node wid _ (.node wlid _ wll wlv wlr) wv wr =>
        .inr (.node wid p.color (.node wlid .black wll wlv wlr) wv
            (.node p.id .black wr p.value x),
          ws.2 ++ [⟨.rebalance, some wid⟩, ⟨.colorChange, some wid⟩,
            ⟨.rotateRight, some p.id⟩])
      | _ =>
        .inr ((match p.d with
          | .left => RBT.node p.id p.color x p.value ws.1
          | .right => RBT.node p.id p.color ws.1 p.value x), ws.2)

/-- `RedBlackTree.deleteFixup` on the zipper.  The loop guard
`x != t.Root && x.Color == Black` becomes the empty-path / red-root tests;
Case 1 (red sibling) recolors, rotates at the parent and re-examines the
deepened context in the same iteration — after it, a Case 2 hit makes the
new current node red, so the loop exits immediately.  The after-loop
`if x.Color == Red { x.Color = Black }` is `blackenRoot` on the final
position. -/
def deleteFixup (x : RBT) (path : List Ctx) (steps : List TStep) :
    RBT × List TStep :=
  match path with
  | [] =>
    ((blackenRoot x).1, steps ++ (blackenRoot x).2)
  | p :: rest =>
    if x.rootColor = .red then
      let t := plug (paint .black x) (p :: rest)
      (t, steps ++ [⟨.colorChange, some x.rootId⟩])
    else
      match hw : p.sib with
      | .node wid .red wl wv wr =>
        -- Case 1: red sibling — recolor, rotate at the parent, go deeper
        match p.d with
        | .left =>
          let s1 : List TStep := [⟨.rebalance, some wid⟩,
            ⟨.colorChange, some p.id⟩, ⟨.rotateLeft, some p.id⟩]
          let p2 : Ctx := ⟨.left, p.id, .red, p.value, wl⟩
          let w2 : Ctx := ⟨.left, wid, .black, wv, wr⟩
          match dfixCases x p2 with
          | .inl (x2, s2) =>
            -- Case 2 after Case 1: the new current node is red; loop exits
            (plug (paint .black x2) (w2 :: rest),
              steps ++ s1 ++ s2 ++ [⟨.colorChange, some x2.rootId⟩])
          | .inr (res, s2) =>
            ((blackenRoot (plug res (w2 :: rest))).1,
              steps ++ s1 ++ s2 ++ (blackenRoot (plug res (w2 :: rest))).2)
        | .right =>
          let s1 : List TStep := [⟨.rebalance, some wid⟩,
            ⟨.colorChange, some p.id⟩, ⟨.rotateRight, some p.id⟩]
          let p2 : Ctx := ⟨.right, p.id, .red, p.value, wr⟩
          let w2 : Ctx := ⟨.right, wid, .black, wv, wl⟩
          match dfixCases x p2 with
          | .inl (x2, s2) =>
            (plug (paint .black x2) (w2 :: rest),
              steps ++ s1 ++ s2 ++ [⟨.colorChange, some x2.rootId⟩])
          | .inr (res, s2) =>
            ((blackenRoot (plug res (w2 :: rest))).1,
              steps ++ s1 ++ s2 ++ (blackenRoot (plug res (w2 :: rest))).2)
      | _ =>
        match dfixCases x p with
        | .inl (x2, s2) => deleteFixup x2 rest (steps ++ s2)
        | .inr (res, s2) =>
          ((blackenRoot (plug res rest)).1,
            steps ++ s2 ++ (blackenRoot (plug res rest)).2)

/-- `RedBlackTree.Delete`: search for the node (no steps), report
NotFound and leave the tree untouched when absent; otherwise remove it by
the three CLRS cases (no left child / no right child / two children via
the in-order successor), run `deleteFixup` when a black node was removed,
and emit the final Complete step. -/
def rbDelete (t : RedBlackTree) (v : Int) : RedBlackTree × Bool × List TStep :=
  match findZ t.root v [] with
  | none => (t, false, [⟨.notFound, none⟩])
  | some (pz, z) =>
    match z with
    | .nil => (t, false, [⟨.notFound, none⟩])
    | .node zi zc zl zv zr =>
      let s0 : List TStep := [⟨.delete, some zi⟩]
      match zl with
      | .nil =>
        let s1 := s0 ++ [⟨.delete, some zi⟩]
        let fx := if zc = .black then
            deleteFixup zr pz (s1 ++ [⟨.rebalance, none⟩])
          else (plug zr pz, s1)
        (⟨fx.1, t.nextID⟩, true, fx.2 ++ [⟨.complete, none⟩])
      | .node .. =>
        match zr with
        | .nil =>
          let s1 := s0 ++ [⟨.delete, some zi⟩]
          let fx := if zc = .black then
              deleteFixup zl pz (s1 ++ [⟨.rebalance, none⟩])
            else (plug zl pz, s1)
          (⟨fx.1, t.nextID⟩, true, fx.2 ++ [⟨.complete, none⟩])
        | .node .. =>
          let py := findMinPath zr []
          match py.2 with
          | .node yi yc _ yv yr =>
            let s1 := s0 ++ [⟨.delete, some yi⟩, ⟨.delete, some yi⟩]
            let xpath := py.1 ++ [⟨.right, yi, zc, yv, zl⟩] ++ pz
            let fx := if yc = .black then
                deleteFixup yr xpath (s1 ++ [⟨.rebalance, none⟩])
              else (plug yr xpath, s1)
            (⟨fx.1, t.nextID⟩, true, fx.2 ++ [⟨.complete, none⟩])
          | .nil => (t, false, s0)

/-! ## AVL tree (`avltree.go`) -/

/-- An AVL subtree: the `ID`, `Value`, `Height`, `Left` and `Right` fields
of `AVLNode`; `nil` is the Go nil pointer. -/
inductive AVLT where
  | nil
  | node (id : Int) (value : Int) (height : Int) (l : AVLT) (r : AVLT)
deriving DecidableEq, Repr

/-- `height(node)`: stored height, 0 for nil. -/
def heightOf : AVLT → Int
  | .nil => 0
  | .node _ _ h _ _ => h

/-- `AVLTree.getBalance`: stored left height minus stored right height. -/
def getBalance : AVLT → Int
  | .nil => 0
  | .node _ _ _ l r => heightOf l - heightOf r

/-- Root value; the source dereferences `node.Left.Value`/`node.Right.Value`
only on nonempty children, where this accessor agrees with it. -/
def AVLT.rootValue : AVLT → Int
  | .nil => 0
  | .node _ v _ _ _ => v

/-- `AVLTree.rightRotate`: rotate right, recomputing the demoted node's
height first, then the promoted node's, and emit the RotateRight step.
The source would dereference a nil `y.Left`; call sites guarantee it is a
node, and the nil shape is returned unchanged. -/
def avlRightRotate : AVLT → AVLT × List TStep
  | .node yid yv _ (.node xid xv _ a b) r =>
    let y2 : AVLT := .node yid yv (max (heightOf b) (heightOf r) + 1) b r
    let x2 : AVLT := .node xid xv (max (heightOf a) (heightOf y2) + 1) a y2
    (x2, [⟨.rotateRight, some yid⟩])
  | t => (t, [])

/-- `AVLTree.leftRotate`, mirror of `avlRightRotate`. -/
def avlLeftRotate : AVLT → AVLT × List TStep
  | .node xid xv _ l (.node yid yv _ b c) =>
    let x2 : AVLT := .node xid xv (max (heightOf l) (heightOf b) + 1) l b
    let y2 : AVLT := .node yid yv (max (heightOf x2) (heightOf c) + 1) x2 c
    (y2, [⟨.rotateLeft, some xid⟩])
  | t => (t, [])

/-- The four insert-rebalance cases of `AVLTree.insert`, tried in the
source's order (LL, RR, LR, RL), selected by the sign of the balance and
the position of the inserted key relative to the child's key; each case
emits a Rebalance step and then its rotation steps.  Runs on the node with
its height already recomputed. -/
def avlRebalanceIns (t : AVLT) (v : Int) : AVLT × List TStep :=
  match t with
  | .nil => (t, [])
  | .node i x h l r =>
    let bal := getBalance (.node i x h l r)
    if 1 < bal ∧ v < l.rootValue then
      let rr := avlRightRotate (.node i x h l r)
      (rr.1, ⟨.rebalance, some i⟩ :: rr.2)
    else if bal < -1 ∧ r.rootValue < v then
      let lr := avlLeftRotate (.node i x h l r)
      (lr.1, ⟨.rebalance, some i⟩ :: lr.2)
    else if 1 < bal ∧ l.rootValue < v then
      let l2 := avlLeftRotate l
      let rr := avlRightRotate (.node i x h l2.1 r)
      (rr.1, ⟨.rebalance, some i⟩ :: (l2.2 ++ rr.2))
    else if bal < -1 ∧ v < r.rootValue then
      let r2 := avlRightRotate r
      let lr := avlLeftRotate (.node i x h l r2.1)
      (lr.1, ⟨.rebalance, some i⟩ :: (r2.2 ++ lr.2))
    else (.node i x h l r, [])

/-- `AVLTree.insert` (the recursive helper): emit a Compare step per node,
create the new node at a nil link (Insert step), refuse duplicates by
returning the node unchanged, then recompute the height on the way back
up and rebalance.  Returns the subtree, the next fresh id and the steps. -/
def avlInsertGo (nid : Int) : AVLT → Int → AVLT × Int × List TStep
  | .nil, v => (.node nid v 1 .nil .nil, nid + 1, [⟨.insert, some nid⟩])
  | .node i x h l r, v =>
    let cmp : List TStep := [⟨.compare, some i⟩]
    if v < x then
      let res := avlInsertGo nid l v
      let base : AVLT := .node i x (1 + max (heightOf res.1) (heightOf r)) res.1 r
      let reb := avlRebalanceIns base v
      (reb.1, res.2.1, cmp ++ res.2.2 ++ reb.2)
    else if x < v then
      let res := avlInsertGo nid r v
      let base : AVLT := .node i x (1 + max (heightOf l) (heightOf res.1)) l res.1
      let reb := avlRebalanceIns base v
      (reb.1, res.2.1, cmp ++ res.2.2 ++ reb.2)
    else
      (.node i x h l r, nid, cmp)

/-- The aggregate `AVLTree`: root and id counter. -/
structure AVLTree where
  root : AVLT
  nextID : Int
deriving DecidableEq, Repr

/-- `NewAVLTree`. -/
def avlNew : AVLTree := ⟨.nil, 0⟩

/-- `AVLTree.Insert`: the opening Insert step ("start inserting"), the
recursive insert, the closing Complete step.  Always reports success. -/
def avlInsert (t : AVLTree) (v : Int) : AVLTree × List TStep :=
  let res := avlInsertGo t.nextID t.root v
  (⟨res.1, res.2.1⟩, ⟨.insert, none⟩ :: res.2.2 ++ [⟨.complete, none⟩])

/-- Fold a list of inserted keys from the empty AVL tree. -/
def avlInsertAll (vs : List Int) : AVLTree :=
  vs.foldl (fun t v => (avlInsert t v).1) avlNew

/-- `AVLTree.Search`: iterative descent with a Compare step per node,
ending in Found (success) or NotFound (failure). -/
def avlSearchGo : AVLT → Int → List TStep → Bool × List TStep
  | .nil, _, steps => (false, steps ++ [⟨.notFound, none⟩])
  | .node i x _ l r, v, steps =>
    let steps2 := steps ++ [⟨.compare, some i⟩]
    if v = x then (true, steps2 ++ [⟨.found, some i⟩])
    else if v < x then avlSearchGo l v steps2
    else avlSearchGo r v steps2

def avlSearch (t : AVLTree) (v : Int) : Bool × List TStep :=
  avlSearchGo t.root v []

/-- `AVLTree.minValueNode`: id and value of the leftmost node (the in-order
successor used by delete); the source never calls it on nil. -/
def leftmost : AVLT → Int × Int
  | .nil => (0, 0)
  | .node i v _ l _ =>
    match l with
    | .nil => (i, v)
    | .node .. => leftmost l

/-- The four delete-rebalance cases of `AVLTree.delete`, tried in the
source's order (LL, LR, RR, RL), selected by the child's balance sign. -/
def avlRebalanceDel (t : AVLT) : AVLT × List TStep :=
  match t with
  | .nil => (t, [])
  | .node i x h l r =>
    let bal := getBalance (.node i x h l r)
    if 1 < bal ∧ 0 ≤ getBalance l then
      let rr := avlRightRotate (.node i x h l r)
      (rr.1, ⟨.rebalance, some i⟩ :: rr.2)
    else if 1 < bal ∧ getBalance l < 0 then
      let l2 := avlLeftRotate l
      let rr := avlRightRotate (.node i x h l2.1 r)
      (rr.1, ⟨.rebalance, some i⟩ :: (l2.2 ++ rr.2))
    else if bal < -1 ∧ getBalance r ≤ 0 then
      let lr := avlLeftRotate (.node i x h l r)
      (lr.1, ⟨.rebalance, some i⟩ :: lr.2)
    else if bal < -1 ∧ 0 < getBalance r then
      let r2 := avlRightRotate r
      let lr := avlLeftRotate (.node i x h l r2.1)
      (lr.1, ⟨.rebalance, some i⟩ :: (r2.2 ++ lr.2))
    else (.node i x h l r, [])

/-- `AVLTree.delete` (the recursive helper).  The no-child / one-child
cases return the other child directly (skipping this frame's height
update, as the source's early `return`); the two-child case copies the
in-order successor's value and id into the node, deletes the successor
from the right subtree, and falls through to the height update and
rebalancing.  Termination measure: size first (the successor removal
recurses on the same node count minus one... the right subtree), then
the subtree itself. -/
def AVLT.size : AVLT → Nat
  | .nil => 0
  | .node _ _ _ l r => l.size + r.size + 1

def avlDeleteGo : AVLT → Int → AVLT × List TStep
  | .nil, _ => (.nil, [⟨.notFound, none⟩])
  | .node i x h l r, v =>
    let cmp : List TStep := [⟨.compare, some i⟩]
    if v < x then
      let res := avlDeleteGo l v
      let base : AVLT := .node i x (1 + max (heightOf res.1) (heightOf r)) res.1 r
      let reb := avlRebalanceDel base
      (reb.1, cmp ++ res.2 ++ reb.2)
    else if x < v then
      let res := avlDeleteGo r v
      let base : AVLT := .node i x (1 + max (heightOf l) (heightOf res.1)) l res.1
      let reb := avlRebalanceDel base
      (reb.1, cmp ++ res.2 ++ reb.2)
    else
      let fnd : List TStep := [⟨.delete, some i⟩]
      match l with
      | .nil => (r, cmp ++ fnd ++ [⟨.delete, some i⟩])
      | .node li lv lh ll lr =>
        match r with
        | .nil =>
          (.node li lv lh ll lr, cmp ++ fnd ++ [⟨.delete, some i⟩])
        | .node ri rv rh rl rr0 =>
          let s := leftmost (.node ri rv rh rl rr0)
          let res := avlDeleteGo (.node ri rv rh rl rr0) s.2
          let base : AVLT := .node s.1 s.2
            (1 + max (heightOf (.node li lv lh ll lr)) (heightOf res.1))
            (.node li lv lh ll lr) res.1
          let reb := avlRebalanceDel base
          (reb.1,
            cmp ++ fnd ++ [⟨.delete, some s.1⟩, ⟨.delete, some s.1⟩]
              ++ res.2 ++ reb.2)
  termination_by t _ => t.size
  decreasing_by
  · simp [AVLT.size]; omega
  · simp [AVLT.size]; omega
  · simp [AVLT.size]; omega

/-- `AVLTree.Delete`: the opening Delete step, then an existence check by
plain descent (no steps); an absent key yields a NotFound step and failure
with the tree untouched; otherwise the recursive delete runs, followed by
a Complete step. -/
def avlContainsLoop : AVLT → Int → Bool
  | .nil, _ => false
  | .node _ x _ l r, v =>
    if v = x then true
    else if v < x then avlContainsLoop l v
    else avlContainsLoop r v

def avlDelete (t : AVLTree) (v : Int) : AVLTree × Bool × List TStep :=
  let s0 : List TStep := [⟨.delete, none⟩]
  if avlContainsLoop t.root v then
    let res := avlDeleteGo t.root v
    (⟨res.1, t.nextID⟩, true, s0 ++ res.2 ++ [⟨.complete, none⟩])
  else
    (t, false, s0 ++ [⟨.notFound, none⟩])

/-! ## Graph and Dijkstra (`graph.go`) -/

/-- `Edge` (`To`, `Weight`; `to` is a Lean keyword, hence `dst`). -/
structure GEdge where
  dst : String
  weight : Int
deriving DecidableEq, Repr

/-- A graph step: the kind, the path list passed to `addStep` (carried in
the snapshot as InPath flags — only the Complete step passes one), the
edge under relaxation, and the visited set at emission time.  The
description strings, distances and display coordinates of the snapshot
are omitted. -/
structure GStep where
  type : StepType
  path : List String
  edge : Option (String × String)
  visited : List String
deriving DecidableEq, Repr

/-- The graph: adjacency lists keyed by node id, in insertion order (the
Go map's iteration order only affects snapshot listing, not results).
Display coordinates are cosmetic and omitted. -/
structure Graph where
  nodes : List (String × List GEdge)
deriving DecidableEq, Repr

def Graph.empty : Graph := ⟨[]⟩

/-- `Graph.AddNode` (coordinates dropped): create an empty adjacency entry
if absent. -/
def Graph.addNode (g : Graph) (id : String) : Graph :=
  if (g.nodes.lookup id).isSome then g else ⟨g.nodes ++ [(id, [])]⟩

def adjAppend : List (String × List GEdge) → String → GEdge →
    List (String × List GEdge)
  | [], a, e => [(a, [e])]
  | (k, es) :: rest, a, e =>
    if k = a then (k, es ++ [e]) :: rest else (k, es) :: adjAppend rest a e

/-- `Graph.AddEdge`: append both directions (undirected). -/
def Graph.addEdge (g : Graph) (a b : String) (w : Int) : Graph :=
  ⟨adjAppend (adjAppend g.nodes a ⟨b, w⟩) b ⟨a, w⟩⟩

def Graph.adj (g : Graph) (id : String) : List GEdge :=
  (g.nodes.lookup id).getD []

/-- Go map reads with zero defaults: distances default 0, previous
defaults "". -/
def lookupD (m : List (String × Int)) (k : String) : Int :=
  (m.lookup k).getD 0

def lookupS (m : List (String × String)) (k : String) : String :=
  (m.lookup k).getD ""

def setKV (m : List (String × Int)) (k : String) (v : Int) :
    List (String × Int) :=
  match m with
  | [] => [(k, v)]
  | (k2, v2) :: rest => if k2 = k then (k, v) :: rest else (k2, v2) :: setKV rest k v

def setKVs (m : List (String × String)) (k v : String) :
    List (String × String) :=
  match m with
  | [] => [(k, v)]
  | (k2, v2) :: rest => if k2 = k then (k, v) :: rest else (k2, v2) :: setKVs rest k v

/-- `math.MaxInt32`, the "infinite" distance. -/
def maxInt32 : Int := 2147483647

/-- `container/heap` on a slice ordered by `priority <` (`PriorityQueue`).
`lget`/`lswap` are bounds-safe slice primitives. -/
def lget (a : List (String × Int)) (i : Nat) : String × Int :=
  a.getD i ("", 0)

def lswap (a : List (String × Int)) (i j : Nat) : List (String × Int) :=
  (a.set i (lget a j)).set j (lget a i)

/-- `heap.up`; `fuel` bounds the walk (the index strictly decreases —
parent of `j + 1` is `j / 2 ≤ j` — so the starting index suffices). -/
def heapUp : List (String × Int) → Nat → Nat → List (String × Int)
  | a, _, 0 => a
  | a, 0, _ + 1 => a
  | a, j + 1, fuel + 1 =>
    let i := j / 2
    if (lget a (j + 1)).2 < (lget a i).2 then heapUp (lswap a i (j + 1)) i fuel
    else a

/-- `heap.down` limited to the first `n` entries; `fuel` bounds the walk
(the index strictly descends the tree, so `n` suffices). -/
def heapDown (a : List (String × Int)) (i n : Nat) : Nat →
    List (String × Int)
  | 0 => a
  | fuel + 1 =>
    let j1 := 2 * i + 1
    if j1 ≥ n then a
    else
      let j := if j1 + 1 < n ∧ (lget a (j1 + 1)).2 < (lget a j1).2 then j1 + 1
        else j1
      if (lget a j).2 < (lget a i).2 then heapDown (lswap a i j) j n fuel
      else a

/-- `heap.Push`. -/
def heapPush (a : List (String × Int)) (x : String × Int) :
    List (String × Int) :=
  heapUp (a ++ [x]) a.length a.length

/-- `heap.Pop`: swap the top with the last element, sift down over the
shrunk prefix, remove and return the last element. -/
def heapPop (a : List (String × Int)) :
    (String × Int) × List (String × Int) :=
  let n := a.length - 1
  let a2 := heapDown (lswap a 0 n) 0 n n
  (lget a2 n, a2.take n)

/-- The mutable state of one Dijkstra run. -/
structure DState where
  dist : List (String × Int)
  prev : List (String × String)
  visited : List String
  pq : List (String × Int)
  steps : List GStep
deriving DecidableEq, Repr

/-- One edge examination of the relaxation loop: an edge to a visited
neighbor is skipped (no step); otherwise an improving distance emits an
Update-Distance step after updating `dist`/`prev` and re-pushing the
neighbor, and a non-improving one emits a Compare step. -/
def relaxOne (u : String) (st : DState) (e : GEdge) : DState :=
  if st.visited.contains e.dst then st
  else
    let newDist := lookupD st.dist u + e.weight
    if newDist < lookupD st.dist e.dst then
      { st with
        dist := setKV st.dist e.dst newDist,
        prev := setKVs st.prev e.dst u,
        pq := heapPush st.pq (e.dst, newDist),
        steps := st.steps ++ [⟨.updateDist, [], some (u, e.dst), st.visited⟩] }
    else
      { st with
        steps := st.steps ++ [⟨.compare, [], some (u, e.dst), st.visited⟩] }

/-- The full relaxation phase over the selected node's adjacency list. -/
def relaxAll (g : Graph) (u : String) (st : DState) : DState :=
  (g.adj u).foldl (relaxOne u) st

/-- Path reconstruction: walk `previous` links from `end` back to the
start (whose predecessor is the empty string, the Go map default),
prepending along the way.  Fuel bounds the walk. -/
def buildPath (prev : List (String × String)) : String → Nat → List String
  | _, 0 => []
  | at0, fuel + 1 =>
    if at0 = "" then [] else buildPath prev (lookupS prev at0) fuel ++ [at0]

/-- The main Dijkstra loop, fuelled (each iteration pops one entry and
pushes at most one per improving relaxation, so edge-count + 2 suffices;
fuel exhaustion cannot occur for the fuel chosen in `Graph.dijkstra`). -/
def dijkstraLoop (g : Graph) (endN : String) (st : DState) :
    Nat → DState × Bool × Option Int
  | 0 => (st, false, none)
  | fuel + 1 =>
    if st.pq.length = 0 then
      ({ st with steps := st.steps ++ [⟨.notFound, [], none, st.visited⟩] },
        false, none)
    else
      let pr := heapPop st.pq
      let st1 := { st with pq := pr.2 }
      if st1.visited.contains pr.1.1 then dijkstraLoop g endN st1 fuel
      else
        let vis2 := st1.visited ++ [pr.1.1]
        let st2 := { st1 with
          visited := vis2
          steps := st1.steps ++ [⟨.selectNode, [], none, vis2⟩] }
        if pr.1.1 = endN then
          let path := buildPath st2.prev endN (st2.prev.length + 1)
          ({ st2 with steps := st2.steps ++ [⟨.complete, path, none, vis2⟩] },
            true, some (lookupD st2.dist endN))
        else
          dijkstraLoop g endN (relaxAll g pr.1.1 st2) fuel

def Graph.edgeTotal (g : Graph) : Nat :=
  (g.nodes.map (fun p => p.2.length)).sum

/-- `Graph.Dijkstra`: initialize all distances to MaxInt32 and the start
to 0 (Visit step), seed the queue with the start, loop; on reaching the
end emit a Complete step carrying the reconstructed path and report the
distance (the numeric payload of the result message); on queue exhaustion
emit NotFound and report failure. -/
def Graph.dijkstra (g : Graph) (startN endN : String) :
    Bool × Option Int × List GStep :=
  let dist0 := setKV (g.nodes.map fun p => (p.1, maxInt32)) startN 0
  let st0 : DState :=
    ⟨dist0, [], [], heapPush [] (startN, 0), [⟨.visit, [], none, []⟩]⟩
  let res := dijkstraLoop g endN st0 (g.edgeTotal + 2)
  (res.2.1, res.2.2, res.1.steps)

/-! ## Benchmark harness (`runner.go`) -/

/-- One `BenchmarkResult` record; the wall-clock duration and derived
ops/sec are float64 values and are omitted. -/
structure BRes where
  structKind : String
  progress : Nat
  memoryUsed : Nat
  completed : Bool
deriving DecidableEq, Repr

/-- Go `uint64` subtraction `a - b`, wrapping modulo 2^64 (both readings
are uint64 values, i.e. below 2^64). -/
def usub64 (a b : Nat) : Nat := (a + 2 ^ 64 - b % 2 ^ 64) % 2 ^ 64

/-- Benchmark operation kind. -/
inductive BOp where
  | insertOp | searchOp
deriving DecidableEq, Repr

/-- Whether the shared stop signal is observable at the check before
element `i`: the channel is closed at some instant, modelled as the index
`k` from which every check sees it (`none` = never). -/
def stopSeen : Option Nat → Nat → Bool
  | none, _ => false
  | some k, i => k ≤ i

/-- `Runner.benchmarkHashMap`'s element loop: before each element, check
the stop signal and return immediately when set; otherwise perform the
operation (insert fills the map; the search probe reads a random already
inserted key and has no observable effect on results, so the PRNG is not
modelled) and, at every `reportInterval`-th element (except the first),
emit a partial result with `completed=false` and the current allocator
reading `mem i`.  Returns the emitted partials and the number of elements
processed. -/
def benchmarkHashMapGo (op : BOp) (stopAt : Option Nat) (ri total : Nat)
    (mem : Nat → Nat) : Nat → List Int → List (Int × Int) → List BRes →
    List BRes × Nat
  | i, [], _, acc => (acc, i)
  | i, v :: rest, m, acc =>
    if stopSeen stopAt i then (acc, i)
    else
      let m2 := match op with
        | .insertOp => (v, v) :: m
        | .searchOp => m
      let acc2 := if 0 < i ∧ i % ri = 0 then
          acc ++ [⟨"hashmap", (i * 100) / total, mem i, false⟩]
        else acc
      benchmarkHashMapGo op stopAt ri total mem (i + 1) rest m2 acc2

/-- `Runner.runSingleBenchmark` for the hashmap worker: compute the report
interval (5%, at least 1), run the element loop, then unconditionally
emit the final result with `completed=true`, `progress=100` and
`memoryUsed = endAlloc - startAlloc` in uint64 arithmetic. -/
def runSingleBenchmark (op : BOp) (data : List Int) (stopAt : Option Nat)
    (startAlloc endAlloc : Nat) (mem : Nat → Nat) : List BRes × Nat :=
  let ri := if data.length / 20 < 1 then 1 else data.length / 20
  let inner := benchmarkHashMapGo op stopAt ri data.length mem 0 data [] []
  (inner.1 ++ [⟨"hashmap", 100, usub64 endAlloc startAlloc, true⟩], inner.2)

/-! ## Operation sequences (for the search/insert/delete interleaving) -/

/-- An Insert or Delete request against a tree. -/
inductive TreeOp where
  | insOp (k : Int)
  | delOp (k : Int)
deriving DecidableEq, Repr

/-- Apply a sequence of operations to an AVL tree through the public
`Insert`/`Delete` entry points. -/
def avlApply (t : AVLTree) : List TreeOp → AVLTree
  | [] => t
  | .insOp k :: ops => avlApply (avlInsert t k).1 ops
  | .delOp k :: ops => avlApply (avlDelete t k).1 ops

/-- Apply a sequence of operations to a red-black tree through the public
`Insert`/`Delete` entry points. -/
def rbApply (t : RedBlackTree) : List TreeOp → RedBlackTree
  | [] => t
  | .insOp k :: ops => rbApply (rbInsert t k).1 ops
  | .delOp k :: ops => rbApply (rbDelete t k).1 ops

/-- "k was inserted and not subsequently deleted" over a sequence of
operations. -/
def liveKey (k : Int) (ops : List TreeOp) : Bool :=
  ops.foldl (fun b op => match op with
    | .insOp j => if j = k then true else b
    | .delOp j => if j = k then false else b) false

/-! ## Snapshots (`snapshot.go`, display coordinates omitted) -/

/-- `TreeNodeSnapshot` without the cosmetic x/y floats. -/
structure TreeNodeSnap where
  id : Int
  value : Int
  color : Option Color
  height : Int
  leftId : Option Int
  rightId : Option Int
  parentId : Option Int
deriving DecidableEq, Repr

def optId : RBT → Option Int
  | .nil => none
  | .node i _ _ _ _ => some i

/-- `RedBlackTree.inorderSnapshot` (which lists a node before its
children). -/
def rbSnapshotGo : RBT → Option Int → List TreeNodeSnap
  | .nil, _ => []
  | .node i c l v r, par =>
    ⟨i, v, some c, 0, optId l, optId r, par⟩ ::
      (rbSnapshotGo l (some i) ++ rbSnapshotGo r (some i))

def rbSnapshot (t : RBT) : List TreeNodeSnap := rbSnapshotGo t none

def optIdA : AVLT → Option Int
  | .nil => none
  | .node i _ _ _ _ => some i

/-- `AVLTree.inorderSnapshot` (no parent links in the AVL tree). -/
def avlSnapshot : AVLT → List TreeNodeSnap
  | .nil => []
  | .node i v h l r =>
    ⟨i, v, none, h, optIdA l, optIdA r, none⟩ ::
      (avlSnapshot l ++ avlSnapshot r)

/-! ## AVL invariants (spec sections 3 and 8) -/

/-- Key membership. -/
def keyIn : AVLT → Int → Bool
  | .nil, _ => false
  | .node _ x _ l r, v => v = x || keyIn l v || keyIn r v

/-- All keys satisfy a predicate. -/
def allKeys : AVLT → (Int → Prop) → Prop
  | .nil, _ => True
  | .node _ x _ l r, p => p x ∧ allKeys l p ∧ allKeys r p

/-- Strict binary-search order. -/
def sortedA : AVLT → Prop
  | .nil => True
  | .node _ x _ l r =>
    allKeys l (· < x) ∧ allKeys r (x < ·) ∧ sortedA l ∧ sortedA r

/-- Every stored `Height` equals 1 + max of the children's heights (an
absent child contributing 0). -/
def hinv : AVLT → Prop
  | .nil => True
  | .node _ _ h l r =>
    h = 1 + max (heightOf l) (heightOf r) ∧ hinv l ∧ hinv r

/-- Every balance factor lies in [-1, 1]. -/
def balancedA : AVLT → Prop
  | .nil => True
  | .node _ _ _ l r =>
    -1 ≤ heightOf l - heightOf r ∧ heightOf l - heightOf r ≤ 1
      ∧ balancedA l ∧ balancedA r

instance allKeys.dec : (t : AVLT) → (p : Int → Prop) → [DecidablePred p] →
    Decidable (allKeys t p)
  | .nil, _, _ => .isTrue trivial
  | .node _ x _ l r, p, _ =>
    haveI := allKeys.dec l p
    haveI := allKeys.dec r p
    show Decidable (p x ∧ allKeys l p ∧ allKeys r p) from inferInstance

instance sortedA.dec : (t : AVLT) → Decidable (sortedA t)
  | .nil => .isTrue trivial
  | .node _ x _ l r =>
    haveI := sortedA.dec l
    haveI := sortedA.dec r
    show Decidable (allKeys l (· < x) ∧ allKeys r (x < ·) ∧ sortedA l ∧ sortedA r)
      from inferInstance

instance hinv.dec : (t : AVLT) → Decidable (hinv t)
  | .nil => .isTrue trivial
  | .node _ _ h l r =>
    haveI := hinv.dec l
    haveI := hinv.dec r
    show Decidable (h = 1 + max (heightOf l) (heightOf r) ∧ hinv l ∧ hinv r)
      from inferInstance

instance balancedA.dec : (t : AVLT) → Decidable (balancedA t)
  | .nil => .isTrue trivial
  | .node _ _ _ l r =>
    haveI := balancedA.dec l
    haveI := balancedA.dec r
    show Decidable (-1 ≤ heightOf l - heightOf r ∧ heightOf l - heightOf r ≤ 1
      ∧ balancedA l ∧ balancedA r) from inferInstance

/-- The AVL invariant package used by the reachability arguments. -/
def AvlInv (t : AVLT) : Prop := sortedA t ∧ hinv t ∧ balancedA t

/-! ## Red-black order and membership -/

/-- Key membership in a red-black subtree. -/
def rbKeyIn : RBT → Int → Bool
  | .nil, _ => false
  | .node _ _ l x r, v => v = x || rbKeyIn l v || rbKeyIn r v

/-- All keys of a red-black subtree satisfy a predicate. -/
def allRB : RBT → (Int → Prop) → Prop
  | .nil, _ => True
  | .node _ _ l x r, p => p x ∧ allRB l p ∧ allRB r p

/-- Strict binary-search order of a red-black subtree. -/
def sortedRB : RBT → Prop
  | .nil => True
  | .node _ _ l x r =>
    allRB l (· < x) ∧ allRB r (x < ·) ∧ sortedRB l ∧ sortedRB r

instance allRB.dec : (t : RBT) → (p : Int → Prop) → [DecidablePred p] →
    Decidable (allRB t p)
  | .nil, _, _ => .isTrue trivial
  | .node _ _ l x r, p, _ =>
    haveI := allRB.dec l p
    haveI := allRB.dec r p
    show Decidable (p x ∧ allRB l p ∧ allRB r p) from inferInstance

instance sortedRB.dec : (t : RBT) → Decidable (sortedRB t)
  | .nil => .isTrue trivial
  | .node _ _ l x r =>
    haveI := sortedRB.dec l
    haveI := sortedRB.dec r
    show Decidable (allRB l (· < x) ∧ allRB r (x < ·) ∧ sortedRB l ∧ sortedRB r)
      from inferInstance

/-! ## Concrete graphs used by the specification scenarios -/

/-- The spec's concrete scenario graph: nodes A, B, C, D and undirected
edges A-B(4), A-C(2), C-B(1), B-D(5), C-D(8).  (Display coordinates are
cosmetic and omitted.) -/
def scenarioGraph : Graph :=
  (((((((((Graph.empty.addNode "A").addNode "B").addNode "C").addNode
    "D").addEdge "A" "B" 4).addEdge "A" "C" 2).addEdge "C" "B" 1).addEdge
    "B" "D" 5).addEdge "C" "D" 8)

/-- A three-node line A-B(1), B-C(1): when B is selected, its edge back to
the already-visited A is skipped without emitting any step. -/
def lineGraph : Graph :=
  ((((Graph.empty.addNode "A").addNode "B").addNode "C").addEdge
    "A" "B" 1).addEdge "B" "C" 1

lemma bh_node_iff {i : Int} {c : Color} {l r : RBT} {v : Int} {n : Nat} :
    bh (.node i c l v r) = some n ↔
      ∃ m, bh l = some m ∧ bh r = some m ∧
        n = m + (if c = .black then 1 else 0) := by
  constructor
  · intro h
    simp only [bh] at h
    rcases hl : bh l with _ | m <;> rcases hr : bh r with _ | k <;>
      simp [hl, hr] at h
    rcases h with ⟨hmk, hn⟩
    exact ⟨m, rfl, by rw [hmk], hn.symm⟩
  · rintro ⟨m, hl, hr, hn⟩
    simp [bh, hl, hr, hn]

lemma redSep_node_iff {i : Int} {c : Color} {l r : RBT} {v : Int} :
    RedSep (.node i c l v r) ↔
      (c = .red → l.rootColor = .black ∧ r.rootColor = .black)
        ∧ RedSep l ∧ RedSep r := Iff.rfl

lemma color_eq_black_of_ne_red {c : Color} (h : ¬ c = .red) : c = .black := by
  cases c
  · exact absurd rfl h
  · rfl

lemma color_black_of_red_imp {c : Color} {t : RBT}
    (h : t.rootColor = .red → c = .black) (hc : c = .red) :
    t.rootColor = .black := by
  cases ht : t.rootColor
  · rw [h ht] at hc; cases hc
  · rfl

/-- `blackenRoot` yields a valid tree from a tree whose only possible
defect is a red root. -/
lemma blackenRoot_valid {t : RBT} (h1 : RedSep t) (h2 : ∃ n, bh t = some n) :
    ValidRB (blackenRoot t).1 := by
  rcases h2 with ⟨n, hn⟩
  cases t with
  | nil => exact ⟨rfl, trivial, 0, rfl⟩
  | node i c l v r =>
    rcases bh_node_iff.mp hn with ⟨m, hl, hr, _⟩
    rcases h1 with ⟨_, hsl, hsr⟩
    cases c with
    | red =>
      refine ⟨rfl, redSep_node_iff.mpr ⟨fun h => Color.noConfusion h, hsl, hsr⟩, m + 1, ?_⟩
      simpa [blackenRoot] using bh_node_iff.mpr ⟨m, hl, hr, by simp⟩
    | black =>
      refine ⟨rfl, redSep_node_iff.mpr ⟨fun h => Color.noConfusion h, hsl, hsr⟩, n, ?_⟩
      simpa [blackenRoot] using hn

/-- Plugging a valid subtree into a valid ancestor path produces a tree
with no red-red violations and a consistent black height. -/
lemma plug_valid : ∀ (path : List Ctx) (t : RBT) (n : Nat),
    pathValid path n → RedSep t → bh t = some n →
    (t.rootColor = .red → headColor path = .black) →
    RedSep (plug t path) ∧ ∃ m, bh (plug t path) = some m := by
  intro path
  induction path with
  | nil => exact fun t n _ hsep hbh _ => ⟨hsep, n, hbh⟩
  | cons c rest ih =>
    intro t n hpv hsep hbh hcol
    rcases hpv with ⟨hsib, hbsib, hred1, hred2, hpv2⟩
    have hcol2 : c.color = .red → t.rootColor = .black := by
      intro hc
      exact color_black_of_red_imp (fun h => hcol h) hc
    have hlink : RedSep (c.link t) ∧
        bh (c.link t) = some (n + (if c.color = .black then 1 else 0)) := by
      cases hd : c.d with
      | left =>
        simp only [Ctx.link, hd]
        exact ⟨redSep_node_iff.mpr ⟨fun hc => ⟨hcol2 hc, hred1 hc⟩, hsep, hsib⟩,
          bh_node_iff.mpr ⟨n, hbh, hbsib, rfl⟩⟩
      | right =>
        simp only [Ctx.link, hd]
        exact ⟨redSep_node_iff.mpr ⟨fun hc => ⟨hred1 hc, hcol2 hc⟩, hsib, hsep⟩,
          bh_node_iff.mpr ⟨n, hbsib, hbh, rfl⟩⟩
    have hcol3 : (c.link t).rootColor = .red → headColor rest = .black := by
      intro hc
      apply hred2
      cases hd : c.d <;> simp [Ctx.link, hd, RBT.rootColor] at hc <;> exact hc
    have := ih (c.link t) (n + (if c.color = .black then 1 else 0))
      hpv2 hlink.1 hlink.2 hcol3
    simpa [plug] using this

/-- The BST descent of `Insert` produces a valid ancestor path for the
insertion point (which sits at black height 0). -/
lemma descend_valid : ∀ (t : RBT) (v : Int) (path : List Ctx)
    (steps : List TStep) (n : Nat),
    RedSep t → bh t = some n → pathValid path n →
    (t.rootColor = .red → headColor path = .black) →
    pathValid (descend t v path steps).1 0 := by
  intro t
  induction t with
  | nil =>
    intro v path steps n _ hbh hpv _
    have : n = 0 := by simpa [bh] using hbh.symm
    subst this
    simpa [descend] using hpv
  | node i c l x r ihl ihr =>
    intro v path steps n hsep hbh hpv hcol
    rcases bh_node_iff.mp hbh with ⟨m, hbl, hbr, hn⟩
    rcases redSep_node_iff.mp hsep with ⟨hrc, hsl, hsr⟩
    by_cases hv : v < x
    · have hpv2 : pathValid (⟨.left, i, c, x, r⟩ :: path) m := by
        refine ⟨hsr, hbr, fun hc => (hrc hc).2, fun hc => hcol ?_, ?_⟩
        · simpa [RBT.rootColor] using hc
        · simpa [hn] using hpv
      have hcol2 : l.rootColor = .red → headColor (⟨.left, i, c, x, r⟩ :: path) = .black := by
        intro hl
        show c = Color.black
        cases hc : c with
        | red => exact absurd ((hrc hc).1) (by simp [hl])
        | black => rfl
      simpa [descend, hv] using
        ihl v (⟨.left, i, c, x, r⟩ :: path) (steps ++ [⟨.compare, some i⟩]) m
          hsl hbl hpv2 hcol2
    · have hpv2 : pathValid (⟨.right, i, c, x, l⟩ :: path) m := by
        refine ⟨hsl, hbl, fun hc => (hrc hc).1, fun hc => hcol ?_, ?_⟩
        · simpa [RBT.rootColor] using hc
        · simpa [hn] using hpv
      have hcol2 : r.rootColor = .red → headColor (⟨.right, i, c, x, l⟩ :: path) = .black := by
        intro hr
        show c = Color.black
        cases hc : c with
        | red => exact absurd ((hrc hc).2) (by simp [hr])
        | black => rfl
      simpa [descend, hv] using
        ihr v (⟨.right, i, c, x, l⟩ :: path) (steps ++ [⟨.compare, some i⟩]) m
          hsr hbr hpv2 hcol2

/-- Helper: a locally valid rebuilt subtree of black height `n+1`, plugged
into the remaining (valid) path and root-blackened, gives a valid tree. -/
lemma valid_of_plug_black {res : RBT} {rest2 : List Ctx} {n : Nat}
    (hsep : RedSep res) (hbh : bh res = some (n + 1))
    (hcol : res.rootColor = .black) (hpv : pathValid rest2 (n + 1)) :
    ValidRB (blackenRoot (plug res rest2)).1 := by
  have h := plug_valid rest2 res (n + 1) hpv hsep hbh
    (fun h => by rw [hcol] at h; exact Color.noConfusion h)
  exact blackenRoot_valid h.1 h.2

/-- The insert-fixup loop restores all three red-black invariants: started
on a red node with a valid ancestor path, it produces a valid tree. -/
lemma insertFixup_valid : ∀ (path : List Ctx) (z : RBT) (steps : List TStep)
    (n : Nat), z.rootColor = .red → RedSep z → bh z = some n →
    pathValid path n → ValidRB (insertFixup z path steps).1 := by
  have H : ∀ (k : Nat) (path : List Ctx), path.length ≤ k →
      ∀ (z : RBT) (steps : List TStep) (n : Nat),
      z.rootColor = .red → RedSep z → bh z = some n → pathValid path n →
      ValidRB (insertFixup z path steps).1 := by
    intro k
    induction k with
    | zero =>
      intro path hlen z steps n _ hsep hbh _
      have hnil : path = [] := List.length_eq_zero.mp (Nat.le_zero.mp hlen)
      subst hnil
      simpa [insertFixup] using blackenRoot_valid hsep ⟨n, hbh⟩
    | succ k ih =>
      intro path hlen z steps n hz hsep hbh hpv
      cases path with
      | nil => simpa [insertFixup] using blackenRoot_valid hsep ⟨n, hbh⟩
      | cons p rest =>
        obtain ⟨pd, pid, pc, pv0, psib⟩ := p
        by_cases hp : pc = Color.red
        · subst hp
          obtain ⟨hsp, hbp, hr1, hr2, hpv2⟩ := hpv
          have hspb : psib.rootColor = Color.black := hr1 rfl
          cases rest with
          | nil =>
            -- red parent at the root: modelled loop exit, then blacken
            simp only [insertFixup, plug]
            cases pd with
            | left =>
              simp only [Ctx.link, blackenRoot]
              refine ⟨rfl,
                redSep_node_iff.mpr ⟨fun h => Color.noConfusion h, hsep, hsp⟩,
                n + 1, ?_⟩
              exact bh_node_iff.mpr ⟨n, hbh, hbp, by simp⟩
            | right =>
              simp only [Ctx.link, blackenRoot]
              refine ⟨rfl,
                redSep_node_iff.mpr ⟨fun h => Color.noConfusion h, hsp, hsep⟩,
                n + 1, ?_⟩
              exact bh_node_iff.mpr ⟨n, hbp, hbh, by simp⟩
          | cons g rest2 =>
            obtain ⟨gd, gid, gc, gv0, gsib⟩ := g
            have hgb : gc = Color.black := by simpa [headColor] using hr2 rfl
            subst hgb
            have hpv2a : pathValid (⟨gd, gid, .black, gv0, gsib⟩ :: rest2) n := by
              simpa using hpv2
            obtain ⟨hsg, hbg, _, _, hpv3⟩ := hpv2a
            have hpv3a : pathValid rest2 (n + 1) := by simpa using hpv3
            have hlen2 : rest2.length ≤ k := by
              simp only [List.length_cons] at hlen
              omega
            cases hgs : gsib with
            | node ui uc ul uv ur =>
              cases uc with
              | red =>
                -- Case 1 (both mirrors): recolor and continue from grandparent
                subst hgs
                obtain ⟨_, hul, hur⟩ := redSep_node_iff.mp hsg
                obtain ⟨mu, hbul, hbur, hmu⟩ := bh_node_iff.mp hbg
                have hmun : mu = n := by simpa using hmu.symm
                rw [hmun] at hbul hbur
                cases gd with
                | left =>
                  cases pd with
                  | left =>
                    refine ih rest2 hlen2 _ _ (n + 1) rfl
                      (redSep_node_iff.mpr ⟨fun _ => ⟨rfl, rfl⟩,
                        redSep_node_iff.mpr ⟨fun h => Color.noConfusion h, hsep, hsp⟩,
                        redSep_node_iff.mpr ⟨fun h => Color.noConfusion h, hul, hur⟩⟩)
                      (bh_node_iff.mpr ⟨n + 1,
                        bh_node_iff.mpr ⟨n, hbh, hbp, by simp⟩,
                        bh_node_iff.mpr ⟨n, hbul, hbur, by simp⟩, by simp⟩)
                      hpv3a
                  | right =>
                    refine ih rest2 hlen2 _ _ (n + 1) rfl
                      (redSep_node_iff.mpr ⟨fun _ => ⟨rfl, rfl⟩,
                        redSep_node_iff.mpr ⟨fun h => Color.noConfusion h, hsp, hsep⟩,
                        redSep_node_iff.mpr ⟨fun h => Color.noConfusion h, hul, hur⟩⟩)
                      (bh_node_iff.mpr ⟨n + 1,
                        bh_node_iff.mpr ⟨n, hbp, hbh, by simp⟩,
                        bh_node_iff.mpr ⟨n, hbul, hbur, by simp⟩, by simp⟩)
                      hpv3a
                | right =>
                  cases pd with
                  | left =>
                    refine ih rest2 hlen2 _ _ (n + 1) rfl
                      (redSep_node_iff.mpr ⟨fun _ => ⟨rfl, rfl⟩,
                        redSep_node_iff.mpr ⟨fun h => Color.noConfusion h, hul, hur⟩,
                        redSep_node_iff.mpr ⟨fun h => Color.noConfusion h, hsep, hsp⟩⟩)
                      (bh_node_iff.mpr ⟨n + 1,
                        bh_node_iff.mpr ⟨n, hbul, hbur, by simp⟩,
                        bh_node_iff.mpr ⟨n, hbh, hbp, by simp⟩, by simp⟩)
                      hpv3a
                  | right =>
                    refine ih rest2 hlen2 _ _ (n + 1) rfl
                      (redSep_node_iff.mpr ⟨fun _ => ⟨rfl, rfl⟩,
                        redSep_node_iff.mpr ⟨fun h => Color.noConfusion h, hul, hur⟩,
                        redSep_node_iff.mpr ⟨fun h => Color.noConfusion h, hsp, hsep⟩⟩)
                      (bh_node_iff.mpr ⟨n + 1,
                        bh_node_iff.mpr ⟨n, hbul, hbur, by simp⟩,
                        bh_node_iff.mpr ⟨n, hbp, hbh, by simp⟩, by simp⟩)
                      hpv3a
              | black =>
                -- uncle is a black node: Cases 2/3
                subst hgs
                have hgsb : RBT.rootColor (.node ui .black ul uv ur) = .black := rfl
                cases gd with
                | left =>
                  cases pd with
                  | left =>
                    exact valid_of_plug_black
                      (redSep_node_iff.mpr ⟨fun h => Color.noConfusion h, hsep,
                        redSep_node_iff.mpr ⟨fun _ => ⟨hspb, hgsb⟩, hsp, hsg⟩⟩)
                      (bh_node_iff.mpr ⟨n, hbh,
                        bh_node_iff.mpr ⟨n, hbp, hbg, by simp⟩, by simp⟩)
                      rfl hpv3a
                  | right =>
                    cases z with
                    | nil => simp [RBT.rootColor] at hz
                    | node zi zc zl zv zr =>
                      have hzc : zc = Color.red := by simpa [RBT.rootColor] using hz
                      subst hzc
                      obtain ⟨hzred, hzl, hzr⟩ := redSep_node_iff.mp hsep
                      obtain ⟨mz, hbzl, hbzr, hmz⟩ := bh_node_iff.mp hbh
                      have hmzn : mz = n := by simpa using hmz.symm
                      rw [hmzn] at hbzl hbzr
                      exact valid_of_plug_black
                        (redSep_node_iff.mpr ⟨fun h => Color.noConfusion h,
                          redSep_node_iff.mpr
                            ⟨fun _ => ⟨hspb, (hzred rfl).1⟩, hsp, hzl⟩,
                          redSep_node_iff.mpr
                            ⟨fun _ => ⟨(hzred rfl).2, hgsb⟩, hzr, hsg⟩⟩)
                        (bh_node_iff.mpr ⟨n,
                          bh_node_iff.mpr ⟨n, hbp, hbzl, by simp⟩,
                          bh_node_iff.mpr ⟨n, hbzr, hbg, by simp⟩, by simp⟩)
                        rfl hpv3a
                | right =>
                  cases pd with
                  | right =>
                    exact valid_of_plug_black
                      (redSep_node_iff.mpr ⟨fun h => Color.noConfusion h,
                        redSep_node_iff.mpr ⟨fun _ => ⟨hgsb, hspb⟩, hsg, hsp⟩,
                        hsep⟩)
                      (bh_node_iff.mpr ⟨n,
                        bh_node_iff.mpr ⟨n, hbg, hbp, by simp⟩, hbh, by simp⟩)
                      rfl hpv3a
                  | left =>
                    cases z with
                    | nil => simp [RBT.rootColor] at hz
                    | node zi zc zl zv zr =>
                      have hzc : zc = Color.red := by simpa [RBT.rootColor] using hz
                      subst hzc
                      obtain ⟨hzred, hzl, hzr⟩ := redSep_node_iff.mp hsep
                      obtain ⟨mz, hbzl, hbzr, hmz⟩ := bh_node_iff.mp hbh
                      have hmzn : mz = n := by simpa using hmz.symm
                      rw [hmzn] at hbzl hbzr
                      exact valid_of_plug_black
                        (redSep_node_iff.mpr ⟨fun h => Color.noConfusion h,
                          redSep_node_iff.mpr
                            ⟨fun _ => ⟨hgsb, (hzred rfl).1⟩, hsg, hzl⟩,
                          redSep_node_iff.mpr
                            ⟨fun _ => ⟨(hzred rfl).2, hspb⟩, hzr, hsp⟩⟩)
                        (bh_node_iff.mpr ⟨n,
                          bh_node_iff.mpr ⟨n, hbg, hbzl, by simp⟩,
                          bh_node_iff.mpr ⟨n, hbzr, hbp, by simp⟩, by simp⟩)
                        rfl hpv3a
            | nil =>
              -- uncle is the sentinel: Cases 2/3 with a nil uncle
              subst hgs
              have hgsb : RBT.rootColor .nil = .black := rfl
              have hbgn : n = 0 := by simpa [bh] using hbg.symm
              subst hbgn
              cases gd with
              | left =>
                cases pd with
                | left =>
                  exact valid_of_plug_black
                    (redSep_node_iff.mpr ⟨fun h => Color.noConfusion h, hsep,
                      redSep_node_iff.mpr ⟨fun _ => ⟨hspb, hgsb⟩, hsp, trivial⟩⟩)
                    (bh_node_iff.mpr ⟨0, hbh,
                      bh_node_iff.mpr ⟨0, hbp, rfl, by simp⟩, by simp⟩)
                    rfl hpv3a
                | right =>
                  cases z with
                  | nil => simp [RBT.rootColor] at hz
                  | node zi zc zl zv zr =>
                    have hzc : zc = Color.red := by simpa [RBT.rootColor] using hz
                    subst hzc
                    obtain ⟨hzred, hzl, hzr⟩ := redSep_node_iff.mp hsep
                    obtain ⟨mz, hbzl, hbzr, hmz⟩ := bh_node_iff.mp hbh
                    have hmzn : mz = 0 := by simpa using hmz.symm
                    rw [hmzn] at hbzl hbzr
                    exact valid_of_plug_black
                      (redSep_node_iff.mpr ⟨fun h => Color.noConfusion h,
                        redSep_node_iff.mpr
                          ⟨fun _ => ⟨hspb, (hzred rfl).1⟩, hsp, hzl⟩,
                        redSep_node_iff.mpr
                          ⟨fun _ => ⟨(hzred rfl).2, hgsb⟩, hzr, trivial⟩⟩)
                      (bh_node_iff.mpr ⟨0,
                        bh_node_iff.mpr ⟨0, hbp, hbzl, by simp⟩,
                        bh_node_iff.mpr ⟨0, hbzr, rfl, by simp⟩, by simp⟩)
                      rfl hpv3a
              | right =>
                cases pd with
                | right =>
                  exact valid_of_plug_black
                    (redSep_node_iff.mpr ⟨fun h => Color.noConfusion h,
                      redSep_node_iff.mpr ⟨fun _ => ⟨hgsb, hspb⟩, trivial, hsp⟩,
                      hsep⟩)
                    (bh_node_iff.mpr ⟨0,
                      bh_node_iff.mpr ⟨0, rfl, hbp, by simp⟩, hbh, by simp⟩)
                    rfl hpv3a
                | left =>
                  cases z with
                  | nil => simp [RBT.rootColor] at hz
                  | node zi zc zl zv zr =>
                    have hzc : zc = Color.red := by simpa [RBT.rootColor] using hz
                    subst hzc
                    obtain ⟨hzred, hzl, hzr⟩ := redSep_node_iff.mp hsep
                    obtain ⟨mz, hbzl, hbzr, hmz⟩ := bh_node_iff.mp hbh
                    have hmzn : mz = 0 := by simpa using hmz.symm
                    rw [hmzn] at hbzl hbzr
                    exact valid_of_plug_black
                      (redSep_node_iff.mpr ⟨fun h => Color.noConfusion h,
                        redSep_node_iff.mpr
                          ⟨fun _ => ⟨hgsb, (hzred rfl).1⟩, trivial, hzl⟩,
                        redSep_node_iff.mpr
                          ⟨fun _ => ⟨(hzred rfl).2, hspb⟩, hzr, hsp⟩⟩)
                      (bh_node_iff.mpr ⟨0,
                        bh_node_iff.mpr ⟨0, rfl, hbzl, by simp⟩,
                        bh_node_iff.mpr ⟨0, hbzr, hbp, by simp⟩, by simp⟩)
                      rfl hpv3a
        · -- parent black: the loop exits immediately
          have hpb : pc = Color.black := color_eq_black_of_ne_red hp
          subst hpb
          have h := plug_valid (⟨pd, pid, .black, pv0, psib⟩ :: rest) z n hpv hsep
            hbh (fun _ => rfl)
          have hunf : insertFixup z (⟨pd, pid, .black, pv0, psib⟩ :: rest) steps
              = ((blackenRoot (plug z (⟨pd, pid, .black, pv0, psib⟩ :: rest))).1,
                steps ++ (blackenRoot
                  (plug z (⟨pd, pid, .black, pv0, psib⟩ :: rest))).2) := by
            cases rest with
            | nil => rfl
            | cons g rest2 =>
              obtain ⟨gd, gi2, gc2, gv2, gs2⟩ := g
              cases gd <;> cases pd <;> rfl
          rw [hunf]
          exact blackenRoot_valid h.1 h.2
  exact fun path => H path.length path le_rfl

/-- `RedBlackTree.Insert` preserves the red-black invariants. -/
lemma rbInsert_valid {t : RedBlackTree} (h : ValidRB t.root) (v : Int) :
    ValidRB ((rbInsert t v).1).root := by
  obtain ⟨_, hsep, n, hbh⟩ := h
  have hpath := descend_valid t.root v [] [⟨.insert, some t.nextID⟩] n
    hsep hbh trivial (fun _ => rfl)
  exact insertFixup_valid _ _ _ 0 rfl
    (redSep_node_iff.mpr ⟨fun _ => ⟨rfl, rfl⟩, trivial, trivial⟩) rfl hpath

/-- The empty tree is valid. -/
lemma rbNew_valid : ValidRB rbNew.root := ⟨rfl, trivial, 0, rfl⟩

lemma rbInsertAll_valid (vs : List Int) : ValidRB (rbInsertAll vs).root := by
  suffices h : ∀ (t : RedBlackTree), ValidRB t.root →
      ValidRB (vs.foldl (fun t v => (rbInsert t v).1) t).root by
    exact h rbNew rbNew_valid
  induction vs with
  | nil => exact fun t h => h
  | cons v vs ihv => exact fun t h => ihv _ (rbInsert_valid h v)

/-! ## AVL: order and membership lemmas -/

lemma allKeys_iff : ∀ (t : AVLT) (p : Int → Prop),
    allKeys t p ↔ ∀ k, keyIn t k = true → p k := by
  intro t
  induction t with
  | nil => simp [allKeys, keyIn]
  | node i x h l r ihl ihr =>
    intro p
    simp only [allKeys, keyIn, ihl, ihr, Bool.or_eq_true, decide_eq_true_eq]
    constructor
    · rintro ⟨hx, hl, hr⟩ k ((hk | hk) | hk)
      · exact hk ▸ hx
      · exact hl k hk
      · exact hr k hk
    · intro h
      exact ⟨h x (Or.inl (Or.inl rfl)),
        fun k hk => h k (Or.inl (Or.inr hk)),
        fun k hk => h k (Or.inr hk)⟩

lemma keyIn_rightRotate : ∀ (t : AVLT) (k : Int),
    keyIn (avlRightRotate t).1 k = true ↔ keyIn t k = true := by
  intro t k
  match t with
  | .nil => rfl
  | .node yid yv yh .nil r => rfl
  | .node yid yv yh (.node xid xv xh a b) r =>
    simp only [avlRightRotate, keyIn, Bool.or_eq_true]
    tauto

lemma keyIn_leftRotate : ∀ (t : AVLT) (k : Int),
    keyIn (avlLeftRotate t).1 k = true ↔ keyIn t k = true := by
  intro t k
  match t with
  | .nil => rfl
  | .node xid xv xh l .nil => rfl
  | .node xid xv xh l (.node yid yv yh b c) =>
    simp only [avlLeftRotate, keyIn, Bool.or_eq_true]
    tauto

lemma allKeys_rightRotate {t : AVLT} {p : Int → Prop} (h : allKeys t p) :
    allKeys (avlRightRotate t).1 p := by
  rw [allKeys_iff] at h ⊢
  exact fun k hk => h k ((keyIn_rightRotate t k).mp hk)

lemma allKeys_leftRotate {t : AVLT} {p : Int → Prop} (h : allKeys t p) :
    allKeys (avlLeftRotate t).1 p := by
  rw [allKeys_iff] at h ⊢
  exact fun k hk => h k ((keyIn_leftRotate t k).mp hk)

lemma sortedA_rightRotate : ∀ {t : AVLT}, sortedA t →
    sortedA (avlRightRotate t).1 := by
  intro t h
  match t with
  | .nil => exact h
  | .node yid yv yh .nil r => exact h
  | .node yid yv yh (.node xid xv xh a b) r =>
    obtain ⟨hly, hry, ⟨hax, hbx, hsa, hsb⟩, hsr⟩ := h
    obtain ⟨hxy, hav, hbv⟩ := hly
    refine ⟨hax, ?_, hsa, hbv, hry, hsb, hsr⟩
    rw [allKeys_iff]
    intro k hk
    simp only [keyIn, Bool.or_eq_true, decide_eq_true_eq] at hk
    rcases hk with (hk | hk) | hk
    · exact hk ▸ hxy
    · exact (allKeys_iff _ _).mp hbx k hk
    · exact lt_trans hxy ((allKeys_iff _ _).mp hry k hk)

lemma sortedA_leftRotate : ∀ {t : AVLT}, sortedA t →
    sortedA (avlLeftRotate t).1 := by
  intro t h
  match t with
  | .nil => exact h
  | .node xid xv xh l .nil => exact h
  | .node xid xv xh l (.node yid yv yh b c) =>
    obtain ⟨hlx, hrx, hsl, ⟨hby, hcy, hsb, hsc⟩⟩ := h
    obtain ⟨hxy, hbv, hcv⟩ := hrx
    refine ⟨?_, hcy, ⟨hlx, hbv, hsl, hsb⟩, hsc⟩
    rw [allKeys_iff]
    intro k hk
    simp only [keyIn, Bool.or_eq_true, decide_eq_true_eq] at hk
    rcases hk with (hk | hk) | hk
    · exact hk ▸ hxy
    · exact lt_trans ((allKeys_iff _ _).mp hlx k hk) hxy
    · exact (allKeys_iff _ _).mp hby k hk

lemma keyIn_rebalanceIns : ∀ (t : AVLT) (v k : Int),
    keyIn (avlRebalanceIns t v).1 k = true ↔ keyIn t k = true := by
  intro t v k
  match t with
  | .nil => rfl
  | .node i x h l r =>
    simp only [avlRebalanceIns]
    split
    · exact keyIn_rightRotate _ k
    · split
      · exact keyIn_leftRotate _ k
      · split
        · rw [keyIn_rightRotate]
          simp only [keyIn, Bool.or_eq_true]
          rw [keyIn_leftRotate]
        · split
          · rw [keyIn_leftRotate]
            simp only [keyIn, Bool.or_eq_true]
            rw [keyIn_rightRotate]
          · exact Iff.rfl

lemma sortedA_rebalanceIns : ∀ (t : AVLT) (v : Int), sortedA t →
    sortedA (avlRebalanceIns t v).1 := by
  intro t v h
  match t with
  | .nil => exact h
  | .node i x hh l r =>
    obtain ⟨hl, hr, hsl, hsr⟩ := h
    simp only [avlRebalanceIns]
    split
    · exact sortedA_rightRotate ⟨hl, hr, hsl, hsr⟩
    · split
      · exact sortedA_leftRotate ⟨hl, hr, hsl, hsr⟩
      · split
        · exact sortedA_rightRotate
            ⟨allKeys_leftRotate hl, hr, sortedA_leftRotate hsl, hsr⟩
        · split
          · exact sortedA_leftRotate
              ⟨hl, allKeys_rightRotate hr, hsl, sortedA_rightRotate hsr⟩
          · exact ⟨hl, hr, hsl, hsr⟩

lemma keyIn_rebalanceDel : ∀ (t : AVLT) (k : Int),
    keyIn (avlRebalanceDel t).1 k = true ↔ keyIn t k = true := by
  intro t k
  match t with
  | .nil => rfl
  | .node i x h l r =>
    simp only [avlRebalanceDel]
    split
    · exact keyIn_rightRotate _ k
    · split
      · rw [keyIn_rightRotate]
        simp only [keyIn, Bool.or_eq_true]
        rw [keyIn_leftRotate]
      · split
        · exact keyIn_leftRotate _ k
        · split
          · rw [keyIn_leftRotate]
            simp only [keyIn, Bool.or_eq_true]
            rw [keyIn_rightRotate]
          · exact Iff.rfl

lemma sortedA_rebalanceDel : ∀ (t : AVLT), sortedA t →
    sortedA (avlRebalanceDel t).1 := by
  intro t h
  match t with
  | .nil => exact h
  | .node i x hh l r =>
    obtain ⟨hl, hr, hsl, hsr⟩ := h
    simp only [avlRebalanceDel]
    split
    · exact sortedA_rightRotate ⟨hl, hr, hsl, hsr⟩
    · split
      · exact sortedA_rightRotate
          ⟨allKeys_leftRotate hl, hr, sortedA_leftRotate hsl, hsr⟩
      · split
        · exact sortedA_leftRotate ⟨hl, hr, hsl, hsr⟩
        · split
          · exact sortedA_leftRotate
              ⟨hl, allKeys_rightRotate hr, hsl, sortedA_rightRotate hsr⟩
          · exact ⟨hl, hr, hsl, hsr⟩

/-- `AVLTree.insert` preserves binary-search order and adds exactly the
inserted key to the key set. -/
lemma avlInsertGo_sorted_keys : ∀ (t : AVLT) (nid v : Int), sortedA t →
    sortedA (avlInsertGo nid t v).1 ∧
    (∀ k, keyIn (avlInsertGo nid t v).1 k = true ↔
      (keyIn t k = true ∨ k = v)) := by
  intro t
  induction t with
  | nil =>
    intro nid v _
    constructor
    · exact ⟨trivial, trivial, trivial, trivial⟩
    · intro k
      simp [avlInsertGo, keyIn]
  | node i x h l r ihl ihr =>
    intro nid v hs
    obtain ⟨hlx, hrx, hsl, hsr⟩ := hs
    by_cases hv : v < x
    · obtain ⟨hs2, hk2⟩ := ihl nid v hsl
      have hbase : sortedA (.node i x
          (1 + max (heightOf (avlInsertGo nid l v).1) (heightOf r))
          (avlInsertGo nid l v).1 r) := by
        refine ⟨?_, hrx, hs2, hsr⟩
        rw [allKeys_iff]
        intro k hk
        rcases (hk2 k).mp hk with hk | hk
        · exact (allKeys_iff _ _).mp hlx k hk
        · exact hk ▸ hv
      constructor
      · simpa [avlInsertGo, hv] using sortedA_rebalanceIns _ v hbase
      · intro k
        simp only [avlInsertGo, if_pos hv]
        rw [keyIn_rebalanceIns]
        simp only [keyIn, Bool.or_eq_true, decide_eq_true_eq]
        rw [hk2 k]
        tauto
    · by_cases hv2 : x < v
      · obtain ⟨hs2, hk2⟩ := ihr nid v hsr
        have hbase : sortedA (.node i x
            (1 + max (heightOf l) (heightOf (avlInsertGo nid r v).1))
            l (avlInsertGo nid r v).1) := by
          refine ⟨hlx, ?_, hsl, hs2⟩
          rw [allKeys_iff]
          intro k hk
          rcases (hk2 k).mp hk with hk | hk
          · exact (allKeys_iff _ _).mp hrx k hk
          · exact hk ▸ hv2
        constructor
        · simpa [avlInsertGo, hv, hv2] using sortedA_rebalanceIns _ v hbase
        · intro k
          simp only [avlInsertGo, if_neg hv, if_pos hv2]
          rw [keyIn_rebalanceIns]
          simp only [keyIn, Bool.or_eq_true, decide_eq_true_eq]
          rw [hk2 k]
          tauto
      · have hvx : v = x := by omega
        subst hvx
        constructor
        · simpa [avlInsertGo] using
            (⟨hlx, hrx, hsl, hsr⟩ : sortedA (.node i v h l r))
        · intro k
          simp only [avlInsertGo, if_neg hv, if_neg hv2]
          simp only [keyIn, Bool.or_eq_true, decide_eq_true_eq]
          tauto

/-- Search on a sorted tree reports exactly key membership. -/
lemma avlSearchGo_correct : ∀ (t : AVLT) (v : Int) (steps : List TStep),
    sortedA t → ((avlSearchGo t v steps).1 = true ↔ keyIn t v = true) := by
  intro t
  induction t with
  | nil => intro v steps _; simp [avlSearchGo, keyIn]
  | node i x h l r ihl ihr =>
    intro v steps hs
    obtain ⟨hlx, hrx, hsl, hsr⟩ := hs
    by_cases hveq : v = x
    · subst hveq
      simp [avlSearchGo, keyIn]
    · by_cases hv : v < x
      · have hnr : keyIn r v = false := by
          rcases hkr : keyIn r v with _ | _
          · rfl
          · exact absurd ((allKeys_iff _ _).mp hrx v hkr) (by omega)
        simp only [avlSearchGo, if_neg hveq, if_pos hv]
        rw [ihl v _ hsl]
        simp [keyIn, hveq, hnr]
      · have hv2 : x < v := by omega
        have hnl : keyIn l v = false := by
          rcases hkl : keyIn l v with _ | _
          · rfl
          · exact absurd ((allKeys_iff _ _).mp hlx v hkl) (by omega)
        simp only [avlSearchGo, if_neg hveq, if_neg hv]
        rw [ihr v _ hsr]
        simp [keyIn, hveq, hnl]

/-- The trace of a search ends in a Found step on success and in a
NotFound step on failure. -/
lemma avlSearchGo_trace : ∀ (t : AVLT) (v : Int) (steps : List TStep),
    ((avlSearchGo t v steps).1 = true →
      ∃ pre j, (avlSearchGo t v steps).2 = steps ++ pre ++ [⟨.found, some j⟩]) ∧
    ((avlSearchGo t v steps).1 = false →
      ∃ pre, (avlSearchGo t v steps).2 = steps ++ pre ++ [⟨.notFound, none⟩]) := by
  intro t
  induction t with
  | nil =>
    intro v steps
    exact ⟨fun h => by simp [avlSearchGo] at h,
      fun _ => ⟨[], by simp [avlSearchGo]⟩⟩
  | node i x h l r ihl ihr =>
    intro v steps
    by_cases hveq : v = x
    · refine ⟨fun _ => ⟨[⟨.compare, some i⟩], i, ?_⟩,
        fun hfa => ?_⟩
      · simp [avlSearchGo, hveq]
      · simp [avlSearchGo, hveq] at hfa
    · by_cases hv : v < x
      · have h2 := ihl v (steps ++ [⟨.compare, some i⟩])
        constructor
        · intro htr
          simp only [avlSearchGo, if_neg hveq, if_pos hv] at htr ⊢
          rcases h2.1 htr with ⟨pre, j, hpre⟩
          exact ⟨⟨.compare, some i⟩ :: pre, j, by simpa using hpre⟩
        · intro htr
          simp only [avlSearchGo, if_neg hveq, if_pos hv] at htr ⊢
          rcases h2.2 htr with ⟨pre, hpre⟩
          exact ⟨⟨.compare, some i⟩ :: pre, by simpa using hpre⟩
      · have h2 := ihr v (steps ++ [⟨.compare, some i⟩])
        constructor
        · intro htr
          simp only [avlSearchGo, if_neg hveq, if_neg hv] at htr ⊢
          rcases h2.1 htr with ⟨pre, j, hpre⟩
          exact ⟨⟨.compare, some i⟩ :: pre, j, by simpa using hpre⟩
        · intro htr
          simp only [avlSearchGo, if_neg hveq, if_neg hv] at htr ⊢
          rcases h2.2 htr with ⟨pre, hpre⟩
          exact ⟨⟨.compare, some i⟩ :: pre, by simpa using hpre⟩

/-- The existence pre-check of `AVLTree.Delete` agrees with membership on
sorted trees. -/
lemma avlContainsLoop_correct : ∀ (t : AVLT) (v : Int), sortedA t →
    (avlContainsLoop t v = true ↔ keyIn t v = true) := by
  intro t
  induction t with
  | nil => intro v _; simp [avlContainsLoop, keyIn]
  | node i x h l r ihl ihr =>
    intro v hs
    obtain ⟨hlx, hrx, hsl, hsr⟩ := hs
    by_cases hveq : v = x
    · subst hveq; simp [avlContainsLoop, keyIn]
    · by_cases hv : v < x
      · have hnr : keyIn r v = false := by
          rcases hkr : keyIn r v with _ | _
          · rfl
          · exact absurd ((allKeys_iff _ _).mp hrx v hkr) (by omega)
        simp only [avlContainsLoop, if_neg hveq, if_pos hv]
        rw [ihl v hsl]
        simp [keyIn, hveq, hnr]
      · have hnl : keyIn l v = false := by
          rcases hkl : keyIn l v with _ | _
          · rfl
          · exact absurd ((allKeys_iff _ _).mp hlx v hkl) (by omega)
        simp only [avlContainsLoop, if_neg hveq, if_neg hv]
        rw [ihr v hsr]
        simp [keyIn, hveq, hnl]

lemma leftmost_keyIn : ∀ (t : AVLT), t ≠ .nil →
    keyIn t (leftmost t).2 = true := by
  intro t
  induction t with
  | nil => intro h; exact absurd rfl h
  | node i x h l r ihl _ =>
    intro _
    cases l with
    | nil => simp [leftmost, keyIn]
    | node li lx lh ll lr =>
      have hin := ihl (by simp)
      have hred : leftmost (AVLT.node i x h (AVLT.node li lx lh ll lr) r)
          = leftmost (AVLT.node li lx lh ll lr) := rfl
      rw [hred]
      show (decide ((leftmost (AVLT.node li lx lh ll lr)).2 = x)
        || keyIn (AVLT.node li lx lh ll lr) (leftmost (AVLT.node li lx lh ll lr)).2
        || keyIn r (leftmost (AVLT.node li lx lh ll lr)).2) = true
      rw [hin]
      simp

lemma leftmost_min : ∀ (t : AVLT), sortedA t →
    ∀ k, keyIn t k = true → k = (leftmost t).2 ∨ (leftmost t).2 < k := by
  intro t
  induction t with
  | nil => intro _ k hk; simp [keyIn] at hk
  | node i x h l r ihl _ =>
    intro hs k hk
    obtain ⟨hlx, hrx, hsl, hsr⟩ := hs
    simp only [keyIn, Bool.or_eq_true, decide_eq_true_eq] at hk
    cases l with
    | nil =>
      simp only [leftmost]
      rcases hk with (hk | hk) | hk
      · exact Or.inl hk
      · simp [keyIn] at hk
      · exact Or.inr ((allKeys_iff _ _).mp hrx k hk)
    | node li lx lh ll lr =>
      have hmin := ihl hsl
      have hmem := leftmost_keyIn (AVLT.node li lx lh ll lr) (by simp)
      have hmx : (leftmost (AVLT.node li lx lh ll lr)).2 < x :=
        (allKeys_iff _ _).mp hlx _ hmem
      have hred : leftmost (AVLT.node i x h (AVLT.node li lx lh ll lr) r)
          = leftmost (AVLT.node li lx lh ll lr) := rfl
      rw [hred]
      rcases hk with (hk | hk) | hk
      · exact Or.inr (by omega)
      · exact hmin k hk
      · have := (allKeys_iff _ _).mp hrx k hk
        exact Or.inr (by omega)

lemma avlDeleteGo_lt {i x h v : Int} {l r : AVLT} (hv : v < x) :
    avlDeleteGo (.node i x h l r) v =
      ((avlRebalanceDel (.node i x
          (1 + max (heightOf (avlDeleteGo l v).1) (heightOf r))
          (avlDeleteGo l v).1 r)).1,
        [⟨.compare, some i⟩] ++ (avlDeleteGo l v).2
          ++ (avlRebalanceDel (.node i x
            (1 + max (heightOf (avlDeleteGo l v).1) (heightOf r))
            (avlDeleteGo l v).1 r)).2) := by
  rw [avlDeleteGo.eq_def]
  simp [hv]

lemma avlDeleteGo_gt {i x h v : Int} {l r : AVLT} (hv : ¬ v < x)
    (hv2 : x < v) :
    avlDeleteGo (.node i x h l r) v =
      ((avlRebalanceDel (.node i x
          (1 + max (heightOf l) (heightOf (avlDeleteGo r v).1))
          l (avlDeleteGo r v).1)).1,
        [⟨.compare, some i⟩] ++ (avlDeleteGo r v).2
          ++ (avlRebalanceDel (.node i x
            (1 + max (heightOf l) (heightOf (avlDeleteGo r v).1))
            l (avlDeleteGo r v).1)).2) := by
  rw [avlDeleteGo.eq_def]
  simp [hv, hv2]

lemma avlDeleteGo_fnd_noleft {i x h v : Int} {r : AVLT} (hv : ¬ v < x)
    (hv2 : ¬ x < v) :
    avlDeleteGo (.node i x h .nil r) v =
      (r, [⟨.compare, some i⟩, ⟨.delete, some i⟩, ⟨.delete, some i⟩]) := by
  rw [avlDeleteGo.eq_def]
  simp [hv, hv2]

lemma avlDeleteGo_fnd_noright {i x h v li lv0 lh : Int} {ll lr : AVLT}
    (hv : ¬ v < x) (hv2 : ¬ x < v) :
    avlDeleteGo (.node i x h (.node li lv0 lh ll lr) .nil) v =
      (.node li lv0 lh ll lr,
        [⟨.compare, some i⟩, ⟨.delete, some i⟩, ⟨.delete, some i⟩]) := by
  rw [avlDeleteGo.eq_def]
  simp [hv, hv2]

lemma avlDeleteGo_fnd_two {i x h v li lv0 lh ri rv0 rh : Int}
    {ll lr rl rr0 : AVLT} (hv : ¬ v < x) (hv2 : ¬ x < v) :
    avlDeleteGo (.node i x h (.node li lv0 lh ll lr) (.node ri rv0 rh rl rr0)) v =
      ((avlRebalanceDel (.node (leftmost (.node ri rv0 rh rl rr0)).1
          (leftmost (.node ri rv0 rh rl rr0)).2
          (1 + max (heightOf (AVLT.node li lv0 lh ll lr))
            (heightOf (avlDeleteGo (.node ri rv0 rh rl rr0)
              (leftmost (.node ri rv0 rh rl rr0)).2).1))
          (.node li lv0 lh ll lr)
          (avlDeleteGo (.node ri rv0 rh rl rr0)
            (leftmost (.node ri rv0 rh rl rr0)).2).1)).1,
        [⟨.compare, some i⟩, ⟨.delete, some i⟩,
          ⟨.delete, some (leftmost (.node ri rv0 rh rl rr0)).1⟩,
          ⟨.delete, some (leftmost (.node ri rv0 rh rl rr0)).1⟩]
          ++ (avlDeleteGo (.node ri rv0 rh rl rr0)
            (leftmost (.node ri rv0 rh rl rr0)).2).2
          ++ (avlRebalanceDel (.node (leftmost (.node ri rv0 rh rl rr0)).1
            (leftmost (.node ri rv0 rh rl rr0)).2
            (1 + max (heightOf (AVLT.node li lv0 lh ll lr))
              (heightOf (avlDeleteGo (.node ri rv0 rh rl rr0)
                (leftmost (.node ri rv0 rh rl rr0)).2).1))
            (.node li lv0 lh ll lr)
            (avlDeleteGo (.node ri rv0 rh rl rr0)
              (leftmost (.node ri rv0 rh rl rr0)).2).1)).2) := by
  rw [avlDeleteGo.eq_def]
  simp [hv, hv2]

/-- `AVLTree.delete` preserves binary-search order and removes exactly the
deleted key from the key set. -/
lemma avlDeleteGo_sorted_keys : ∀ (t : AVLT) (v : Int), sortedA t →
    sortedA (avlDeleteGo t v).1 ∧
    (∀ k, keyIn (avlDeleteGo t v).1 k = true ↔ (keyIn t k = true ∧ k ≠ v)) := by
  intro t v
  induction t, v using avlDeleteGo.induct with
  | case1 v =>
    intro _
    refine ⟨?_, fun k => ?_⟩ <;> simp [avlDeleteGo, keyIn, sortedA]
  | case2 i x h l r v hv ih =>
    intro hs
    obtain ⟨hlx, hrx, hsl, hsr⟩ := hs
    obtain ⟨hs2, hk2⟩ := ih hsl
    have hbase : sortedA (.node i x
        (1 + max (heightOf (avlDeleteGo l v).1) (heightOf r))
        (avlDeleteGo l v).1 r) := by
      refine ⟨?_, hrx, hs2, hsr⟩
      rw [allKeys_iff]
      intro k hk
      exact (allKeys_iff _ _).mp hlx k ((hk2 k).mp hk).1
    rw [avlDeleteGo_lt hv]
    constructor
    · exact sortedA_rebalanceDel _ hbase
    · intro k
      rw [keyIn_rebalanceDel]
      simp only [keyIn, Bool.or_eq_true, decide_eq_true_eq]
      rw [hk2 k]
      constructor
      · rintro ((hk | hk) | hk)
        · exact ⟨Or.inl (Or.inl hk), by omega⟩
        · exact ⟨Or.inl (Or.inr hk.1), hk.2⟩
        · have := (allKeys_iff _ _).mp hrx k hk
          exact ⟨Or.inr hk, by omega⟩
      · rintro ⟨(hk | hk) | hk, hkv⟩
        · exact Or.inl (Or.inl hk)
        · exact Or.inl (Or.inr ⟨hk, hkv⟩)
        · exact Or.inr hk
  | case3 i x h l r v hv hv2 ih =>
    intro hs
    obtain ⟨hlx, hrx, hsl, hsr⟩ := hs
    obtain ⟨hs2, hk2⟩ := ih hsr
    have hbase : sortedA (.node i x
        (1 + max (heightOf l) (heightOf (avlDeleteGo r v).1))
        l (avlDeleteGo r v).1) := by
      refine ⟨hlx, ?_, hsl, hs2⟩
      rw [allKeys_iff]
      intro k hk
      exact (allKeys_iff _ _).mp hrx k ((hk2 k).mp hk).1
    rw [avlDeleteGo_gt hv hv2]
    constructor
    · exact sortedA_rebalanceDel _ hbase
    · intro k
      rw [keyIn_rebalanceDel]
      simp only [keyIn, Bool.or_eq_true, decide_eq_true_eq]
      rw [hk2 k]
      constructor
      · rintro ((hk | hk) | hk)
        · exact ⟨Or.inl (Or.inl hk), by omega⟩
        · have := (allKeys_iff _ _).mp hlx k hk
          exact ⟨Or.inl (Or.inr hk), by omega⟩
        · exact ⟨Or.inr hk.1, hk.2⟩
      · rintro ⟨(hk | hk) | hk, hkv⟩
        · exact Or.inl (Or.inl hk)
        · exact Or.inl (Or.inr hk)
        · exact Or.inr ⟨hk, hkv⟩
  | case4 i x h r v hv hv2 =>
    intro hs
    obtain ⟨hlx, hrx, hsr0, hsr⟩ := hs
    have hveq : v = x := by omega
    subst hveq
    have hxr : ∀ k, keyIn r k = true → v < k := (allKeys_iff _ _).mp hrx
    rw [avlDeleteGo_fnd_noleft hv hv2]
    refine ⟨hsr, fun k => ?_⟩
    simp only [keyIn, Bool.or_eq_true, decide_eq_true_eq]
    constructor
    · intro hk
      have := hxr k hk
      exact ⟨Or.inr hk, by omega⟩
    · rintro ⟨(hk | hk) | hk, hkv⟩
      · omega
      · simp [keyIn] at hk
      · exact hk
  | case5 i x h v hv hv2 li lx lh ll lr =>
    intro hs
    obtain ⟨hlx, hrx, hsl, hsr0⟩ := hs
    have hveq : v = x := by omega
    subst hveq
    have hxl : ∀ k, keyIn (AVLT.node li lx lh ll lr) k = true → k < v :=
      (allKeys_iff _ _).mp hlx
    rw [avlDeleteGo_fnd_noright hv hv2]
    refine ⟨hsl, fun k => ?_⟩
    have hxlk := hxl k
    simp only [keyIn, Bool.or_eq_true, decide_eq_true_eq] at hxlk ⊢
    constructor
    · intro hk
      have := hxlk hk
      exact ⟨Or.inl (Or.inr hk), by omega⟩
    · rintro ⟨(hk | hk) | hk, hkv⟩
      · omega
      · exact hk
      · simp at hk
  | case6 i x h v hv hv2 li lx lh ll lr ri rv rh rl rr0 s0 ih =>
    intro hs
    obtain ⟨hlx, hrx, hsl, hsr⟩ := hs
    have hveq : v = x := by omega
    subst hveq
    have hs0 : s0 = leftmost (AVLT.node ri rv rh rl rr0) := rfl
    rw [hs0] at ih
    obtain ⟨hs2, hk2⟩ := ih hsr
    have hsin : keyIn (AVLT.node ri rv rh rl rr0)
        (leftmost (AVLT.node ri rv rh rl rr0)).2 = true :=
      leftmost_keyIn _ (by simp)
    have hsmin := leftmost_min (AVLT.node ri rv rh rl rr0) hsr
    have hxs : v < (leftmost (AVLT.node ri rv rh rl rr0)).2 :=
      (allKeys_iff _ _).mp hrx _ hsin
    have hbase : sortedA (.node (leftmost (AVLT.node ri rv rh rl rr0)).1
        (leftmost (AVLT.node ri rv rh rl rr0)).2
        (1 + max (heightOf (AVLT.node li lx lh ll lr))
          (heightOf (avlDeleteGo (AVLT.node ri rv rh rl rr0)
            (leftmost (AVLT.node ri rv rh rl rr0)).2).1))
        (AVLT.node li lx lh ll lr)
        (avlDeleteGo (AVLT.node ri rv rh rl rr0)
          (leftmost (AVLT.node ri rv rh rl rr0)).2).1) := by
      refine ⟨?_, ?_, hsl, hs2⟩
      · rw [allKeys_iff]
        intro k hk
        have := (allKeys_iff _ _).mp hlx k hk
        omega
      · rw [allKeys_iff]
        intro k hk
        obtain ⟨hkr, hkns⟩ := (hk2 k).mp hk
        rcases hsmin k hkr with hk1 | hk1
        · exact absurd hk1 hkns
        · exact hk1
    rw [avlDeleteGo_fnd_two hv hv2]
    constructor
    · exact sortedA_rebalanceDel _ hbase
    · intro k
      rw [keyIn_rebalanceDel]
      have hlxk := (allKeys_iff _ _).mp hlx k
      have hrxk := (allKeys_iff _ _).mp hrx k
      have hk2k := hk2 k
      have hsmink := hsmin k
      simp only [keyIn, Bool.or_eq_true, decide_eq_true_eq]
        at hlxk hrxk hk2k hsmink hsin ⊢
      rw [hk2k]
      constructor
      · rintro ((hk | hk) | hk)
        · exact ⟨Or.inr (hk ▸ hsin), by omega⟩
        · have := hlxk hk
          exact ⟨Or.inl (Or.inr hk), by omega⟩
        · have := hrxk hk.1
          exact ⟨Or.inr hk.1, by omega⟩
      · rintro ⟨(hk | hk) | hk, hkv⟩
        · omega
        · exact Or.inl (Or.inr hk)
        · by_cases hks : k = (leftmost (AVLT.node ri rv rh rl rr0)).2
          · exact Or.inl (Or.inl hks)
          · exact Or.inr ⟨hk, hks⟩

lemma heightOf_nil : heightOf .nil = 0 := rfl

lemma heightOf_node {i x h : Int} {l r : AVLT} :
    heightOf (.node i x h l r) = h := rfl

lemma getBalance_node {i x h : Int} {l r : AVLT} :
    getBalance (.node i x h l r) = heightOf l - heightOf r := rfl

lemma rootValue_node {i x h : Int} {l r : AVLT} :
    AVLT.rootValue (.node i x h l r) = x := rfl

lemma heightOf_nonneg : ∀ (t : AVLT), hinv t → 0 ≤ heightOf t := by
  intro t
  induction t with
  | nil => intro _; simp [heightOf]
  | node i x h l r ihl ihr =>
    rintro ⟨hh, hhl, hhr⟩
    have := ihl hhl
    have := ihr hhr
    simp only [heightOf]
    omega

/-- No rebalance case of the insert path fires on a node whose balance is
already within [-1, 1]. -/
lemma avlRebalanceIns_id {i x h v : Int} {l r : AVLT}
    (hb1 : heightOf l - heightOf r ≤ 1) (hb2 : -1 ≤ heightOf l - heightOf r) :
    avlRebalanceIns (.node i x h l r) v = (.node i x h l r, []) := by
  have c1 : ¬(1 < getBalance (AVLT.node i x h l r) ∧ v < l.rootValue) :=
    fun hc => absurd hc.1 (by simp only [getBalance]; omega)
  have c2 : ¬(getBalance (AVLT.node i x h l r) < -1 ∧ r.rootValue < v) :=
    fun hc => absurd hc.1 (by simp only [getBalance]; omega)
  have c3 : ¬(1 < getBalance (AVLT.node i x h l r) ∧ l.rootValue < v) :=
    fun hc => absurd hc.1 (by simp only [getBalance]; omega)
  have c4 : ¬(getBalance (AVLT.node i x h l r) < -1 ∧ v < r.rootValue) :=
    fun hc => absurd hc.1 (by simp only [getBalance]; omega)
  simp only [avlRebalanceIns, if_neg c1, if_neg c2, if_neg c3, if_neg c4]

/-- `AVLTree.insert` keeps the AVL height and balance invariants; on a
duplicate key it is the identity on the tree; the height grows by at most
one, and on growth of a nonempty subtree the root keeps a nonzero balance
whose sign matches the side of the inserted key. -/
lemma avlInsertGo_bal : ∀ (t : AVLT) (nid v : Int),
    sortedA t → hinv t → balancedA t →
    hinv (avlInsertGo nid t v).1 ∧ balancedA (avlInsertGo nid t v).1 ∧
    (heightOf (avlInsertGo nid t v).1 = heightOf t ∨
      heightOf (avlInsertGo nid t v).1 = heightOf t + 1) ∧
    (keyIn t v = true → (avlInsertGo nid t v).1 = t) ∧
    (heightOf (avlInsertGo nid t v).1 = heightOf t + 1 → t ≠ .nil →
      (getBalance (avlInsertGo nid t v).1 ≠ 0 ∧
        (v < (avlInsertGo nid t v).1.rootValue ↔
          getBalance (avlInsertGo nid t v).1 = 1) ∧
        ((avlInsertGo nid t v).1.rootValue < v ↔
          getBalance (avlInsertGo nid t v).1 = -1))) := by
  intro t
  induction t with
  | nil =>
    intro nid v _ _ _
    refine ⟨⟨by simp [heightOf_nil, heightOf_node], trivial, trivial⟩,
      ⟨by simp [heightOf_nil, heightOf_node], by simp [heightOf_nil, heightOf_node], trivial, trivial⟩,
      Or.inr (by simp [avlInsertGo, heightOf_nil, heightOf_node]), ?_, ?_⟩
    · intro hk; simp [keyIn] at hk
    · intro _ hne; exact absurd rfl hne
  | node i x h l r ihl ihr =>
    intro nid v hs hh hb
    obtain ⟨hlx, hrx, hsl, hsr⟩ := hs
    obtain ⟨hh0, hhl, hhr⟩ := hh
    obtain ⟨hb1, hb2, hbl, hbr⟩ := hb
    have hlnn := heightOf_nonneg l hhl
    have hrnn := heightOf_nonneg r hhr
    by_cases hv : v < x
    · -- insert goes left
      obtain ⟨ih_h, ih_b, ih_ht, ih_noop, ih_g⟩ := ihl nid v hsl hhl hbl
      have hkeyt : keyIn (AVLT.node i x h l r) v = keyIn l v := by
        have hnr : keyIn r v = false := by
          rcases hkr : keyIn r v with _ | _
          · rfl
          · exact absurd ((allKeys_iff _ _).mp hrx v hkr) (by omega)
        simp [keyIn, hnr, show v ≠ x by omega]
      have hstep1 : (avlInsertGo nid (AVLT.node i x h l r) v).1
          = (avlRebalanceIns (.node i x
              (1 + max (heightOf (avlInsertGo nid l v).1) (heightOf r))
              (avlInsertGo nid l v).1 r) v).1 := by
        simp only [avlInsertGo, if_pos hv]
      by_cases hkl : keyIn l v = true
      · -- duplicate: the recursive insert is the identity
        rw [ih_noop hkl] at hstep1
        have hbase : (1 + max (heightOf l) (heightOf r)) = h := hh0.symm
        rw [hbase] at hstep1
        rw [avlRebalanceIns_id hb2 hb1] at hstep1
        rw [hstep1]
        refine ⟨⟨hh0, hhl, hhr⟩, ⟨hb1, hb2, hbl, hbr⟩, Or.inl rfl, fun _ => rfl,
          fun hgrow _ => absurd hgrow (by (try simp only [heightOf_node, heightOf_nil]); omega)⟩
      · rcases ih_ht with hsame | hgrow
        · -- left height unchanged: no rebalancing
          have e1 : heightOf (avlInsertGo nid l v).1 - heightOf r ≤ 1 := by omega
          have e2 : -1 ≤ heightOf (avlInsertGo nid l v).1 - heightOf r := by omega
          rw [hsame] at hstep1
          rw [avlRebalanceIns_id e1 e2] at hstep1
          rw [hstep1]
          refine ⟨⟨by rw [hsame], ih_h, hhr⟩,
            ⟨by rw [hsame]; omega, by rw [hsame]; omega, ih_b, hbr⟩,
            Or.inl (by (try simp only [heightOf_node, heightOf_nil]); omega),
            ?_, ?_⟩
          · intro hk
            rw [hkeyt] at hk
            exact absurd hk hkl
          · intro hgrow2 _
            exact absurd hgrow2 (by (try simp only [heightOf_node, heightOf_nil]); omega)
        · -- left subtree grew by one
          by_cases hbal2 : heightOf (avlInsertGo nid l v).1 - heightOf r ≤ 1
          · -- still within tolerance: no rotation
            have hbb2 : -1 ≤ heightOf (avlInsertGo nid l v).1 - heightOf r := by
              omega
            rw [avlRebalanceIns_id hbal2 hbb2] at hstep1
            rw [hstep1]
            refine ⟨⟨rfl, ih_h, hhr⟩, ⟨by omega, by omega, ih_b, hbr⟩, ?_,
              ?_, ?_⟩
            · simp only [heightOf_node]; omega
            · intro hk
              rw [hkeyt] at hk
              exact absurd hk hkl
            · intro hgrow2 _
              simp only [heightOf_node] at hgrow2
              refine ⟨?_, ?_, ?_⟩
              · simp only [getBalance_node]; omega
              · simp only [getBalance_node, rootValue_node]
                constructor
                · intro _; omega
                · intro _; exact hv
              · simp only [getBalance_node, rootValue_node]
                constructor
                · intro hxa; omega
                · intro hba; omega
          · -- balance reached +2: rotate
            have hbal3 : heightOf (avlInsertGo nid l v).1 - heightOf r = 2 := by
              omega
            have hlpos : 1 ≤ heightOf l := by omega
            have hlne : l ≠ .nil := by
              intro hle
              rw [hle] at hlpos
              simp [heightOf_nil] at hlpos
            obtain ⟨ihg0, ihg1, ihg2⟩ := ih_g (by omega) hlne
            have hl2b : -1 ≤ getBalance (avlInsertGo nid l v).1 ∧
                getBalance (avlInsertGo nid l v).1 ≤ 1 := by
              rcases hl2 : (avlInsertGo nid l v).1 with _ | ⟨li2, lx2, lh2, la, lb⟩
              · simp [getBalance]
              · rw [hl2] at ih_b
                obtain ⟨p1, p2, _, _⟩ := ih_b
                simp only [getBalance_node]
                omega
            rcases hl2 : (avlInsertGo nid l v).1 with _ | ⟨li2, lx2, lh2, la, lb⟩
            · rw [hl2] at hgrow
              simp only [heightOf_nil] at hgrow
              omega
            · rw [hl2] at hstep1 hgrow hbal3 ihg0 ihg1 ihg2 ih_h ih_b hl2b
              obtain ⟨ihh0, ihhla, ihhlb⟩ := ih_h
              obtain ⟨ihb1, ihb2, ihbla, ihblb⟩ := ih_b
              have hann := heightOf_nonneg la ihhla
              have hbnn := heightOf_nonneg lb ihhlb
              simp only [heightOf_node] at hgrow hbal3
              rcases Int.lt_or_lt_of_ne ihg0 with hsgn | hsgn
              · -- balance -1: inserted key right of the child: LR case
                have hrvlt : (AVLT.node li2 lx2 lh2 la lb).rootValue < v := by
                  apply ihg2.mpr
                  simp only [getBalance_node] at hsgn ⊢
                  omega
                have hnvlt : ¬ v < (AVLT.node li2 lx2 lh2 la lb).rootValue := by
                  omega
                have c1 : ¬(1 < getBalance (AVLT.node i x
                    (1 + max (heightOf (AVLT.node li2 lx2 lh2 la lb)) (heightOf r))
                    (AVLT.node li2 lx2 lh2 la lb) r) ∧
                    v < (AVLT.node li2 lx2 lh2 la lb).rootValue) :=
                  fun hc => absurd hc.2 hnvlt
                have c2 : ¬(getBalance (AVLT.node i x
                    (1 + max (heightOf (AVLT.node li2 lx2 lh2 la lb)) (heightOf r))
                    (AVLT.node li2 lx2 lh2 la lb) r) < -1 ∧ r.rootValue < v) :=
                  fun hc => absurd hc.1 (by simp only [getBalance_node, heightOf_node]; omega)
                have c3 : (1 < getBalance (AVLT.node i x
                    (1 + max (heightOf (AVLT.node li2 lx2 lh2 la lb)) (heightOf r))
                    (AVLT.node li2 lx2 lh2 la lb) r) ∧
                    (AVLT.node li2 lx2 lh2 la lb).rootValue < v) :=
                  ⟨by simp only [getBalance_node, heightOf_node]; omega, hrvlt⟩
                rw [show avlRebalanceIns (AVLT.node i x
                    (1 + max (heightOf (AVLT.node li2 lx2 lh2 la lb)) (heightOf r))
                    (AVLT.node li2 lx2 lh2 la lb) r) v
                  = ((avlRightRotate (AVLT.node i x
                      (1 + max (heightOf (AVLT.node li2 lx2 lh2 la lb)) (heightOf r))
                      (avlLeftRotate (AVLT.node li2 lx2 lh2 la lb)).1 r)).1,
                    ⟨.rebalance, some i⟩ ::
                      ((avlLeftRotate (AVLT.node li2 lx2 lh2 la lb)).2 ++
                        (avlRightRotate (AVLT.node i x
                          (1 + max (heightOf (AVLT.node li2 lx2 lh2 la lb)) (heightOf r))
                          (avlLeftRotate (AVLT.node li2 lx2 lh2 la lb)).1 r)).2))
                  from by simp only [avlRebalanceIns, if_neg c1, if_neg c2, if_pos c3]]
                  at hstep1
                -- the child's right subtree is nonempty
                rcases lb with _ | ⟨bi, bx, bh2, ba, bb⟩
                · simp only [getBalance_node, heightOf_nil] at hsgn
                  omega
                · obtain ⟨bh0, bhba, bhbb⟩ := ihhlb
                  obtain ⟨bb1, bb2, bbba, bbbb⟩ := ihblb
                  have hba_nn := heightOf_nonneg ba bhba
                  have hbb_nn := heightOf_nonneg bb bhbb
                  simp only [avlLeftRotate, avlRightRotate, heightOf_node] at hstep1
                  rw [hstep1]
                  simp only [getBalance_node] at hsgn
                  try simp only [heightOf_node] at ihh0 ihb1 ihb2 bh0 bb1 bb2 hsgn
                  refine ⟨?_, ?_, ?_, ?_, ?_⟩
                  · exact ⟨by (try simp only [heightOf_node, heightOf_nil]); omega,
                      ⟨by (try simp only [heightOf_node, heightOf_nil]); omega, ihhla, bhba⟩,
                      ⟨by (try simp only [heightOf_node, heightOf_nil]); omega, bhbb, hhr⟩⟩
                  · exact ⟨by (try simp only [heightOf_node, heightOf_nil]); omega,
                      by (try simp only [heightOf_node, heightOf_nil]); omega,
                      ⟨by (try simp only [heightOf_node, heightOf_nil]); omega,
                        by (try simp only [heightOf_node, heightOf_nil]); omega, ihbla, bbba⟩,
                      ⟨by (try simp only [heightOf_node, heightOf_nil]); omega,
                        by (try simp only [heightOf_node, heightOf_nil]); omega, bbbb, hbr⟩⟩
                  · exact Or.inl (by (try simp only [heightOf_node, heightOf_nil]); omega)
                  · intro hk
                    rw [hkeyt] at hk
                    exact absurd hk hkl
                  · intro hgrow2 _
                    exact absurd hgrow2 (by (try simp only [heightOf_node, heightOf_nil]); omega)
              · -- balance +1: inserted key left of the child: LL case
                have hvlt : v < (AVLT.node li2 lx2 lh2 la lb).rootValue := by
                  apply ihg1.mpr
                  simp only [getBalance_node] at hsgn ⊢
                  omega
                have c1 : (1 < getBalance (AVLT.node i x
                    (1 + max (heightOf (AVLT.node li2 lx2 lh2 la lb)) (heightOf r))
                    (AVLT.node li2 lx2 lh2 la lb) r) ∧
                    v < (AVLT.node li2 lx2 lh2 la lb).rootValue) :=
                  ⟨by simp only [getBalance_node, heightOf_node]; omega, hvlt⟩
                rw [show avlRebalanceIns (AVLT.node i x
                    (1 + max (heightOf (AVLT.node li2 lx2 lh2 la lb)) (heightOf r))
                    (AVLT.node li2 lx2 lh2 la lb) r) v
                  = ((avlRightRotate (AVLT.node i x
                      (1 + max (heightOf (AVLT.node li2 lx2 lh2 la lb)) (heightOf r))
                      (AVLT.node li2 lx2 lh2 la lb) r)).1,
                    ⟨.rebalance, some i⟩ ::
                      (avlRightRotate (AVLT.node i x
                        (1 + max (heightOf (AVLT.node li2 lx2 lh2 la lb)) (heightOf r))
                        (AVLT.node li2 lx2 lh2 la lb) r)).2)
                  from by simp only [avlRebalanceIns, if_pos c1]] at hstep1
                simp only [avlRightRotate, heightOf_node] at hstep1
                rw [hstep1]
                simp only [getBalance_node] at hsgn
                try simp only [heightOf_node] at ihh0 ihb1 ihb2
                refine ⟨?_, ?_, ?_, ?_, ?_⟩
                · exact ⟨by (try simp only [heightOf_node, heightOf_nil]); omega, ihhla,
                    ⟨by (try simp only [heightOf_node, heightOf_nil]); omega, ihhlb, hhr⟩⟩
                · exact ⟨by (try simp only [heightOf_node, heightOf_nil]); omega,
                    by (try simp only [heightOf_node, heightOf_nil]); omega, ihbla,
                    ⟨by (try simp only [heightOf_node, heightOf_nil]); omega,
                      by (try simp only [heightOf_node, heightOf_nil]); omega, ihblb, hbr⟩⟩
                · exact Or.inl (by (try simp only [heightOf_node, heightOf_nil]); omega)
                · intro hk
                  rw [hkeyt] at hk
                  exact absurd hk hkl
                · intro hgrow2 _
                  exact absurd hgrow2 (by (try simp only [heightOf_node, heightOf_nil]); omega)
    · by_cases hv2 : x < v
      · -- insert goes right (mirror)
        obtain ⟨ih_h, ih_b, ih_ht, ih_noop, ih_g⟩ := ihr nid v hsr hhr hbr
        have hkeyt : keyIn (AVLT.node i x h l r) v = keyIn r v := by
          have hnl : keyIn l v = false := by
            rcases hkl : keyIn l v with _ | _
            · rfl
            · exact absurd ((allKeys_iff _ _).mp hlx v hkl) (by omega)
          simp [keyIn, hnl, show v ≠ x by omega]
        have hstep1 : (avlInsertGo nid (AVLT.node i x h l r) v).1
            = (avlRebalanceIns (.node i x
                (1 + max (heightOf l) (heightOf (avlInsertGo nid r v).1))
                l (avlInsertGo nid r v).1) v).1 := by
          simp only [avlInsertGo, if_neg hv, if_pos hv2]
        by_cases hkr : keyIn r v = true
        · rw [ih_noop hkr] at hstep1
          have hbase : (1 + max (heightOf l) (heightOf r)) = h := hh0.symm
          rw [hbase] at hstep1
          rw [avlRebalanceIns_id hb2 hb1] at hstep1
          rw [hstep1]
          refine ⟨⟨hh0, hhl, hhr⟩, ⟨hb1, hb2, hbl, hbr⟩, Or.inl rfl, fun _ => rfl,
            fun hgrow _ => absurd hgrow (by (try simp only [heightOf_node, heightOf_nil]); omega)⟩
        · rcases ih_ht with hsame | hgrow
          · have e1 : heightOf l - heightOf (avlInsertGo nid r v).1 ≤ 1 := by omega
            have e2 : -1 ≤ heightOf l - heightOf (avlInsertGo nid r v).1 := by omega
            rw [hsame] at hstep1
            rw [avlRebalanceIns_id e1 e2] at hstep1
            rw [hstep1]
            refine ⟨⟨by rw [hsame], hhl, ih_h⟩,
              ⟨by rw [hsame]; omega, by rw [hsame]; omega, hbl, ih_b⟩,
              Or.inl (by (try simp only [heightOf_node, heightOf_nil]); omega),
              ?_, ?_⟩
            · intro hk
              rw [hkeyt] at hk
              exact absurd hk hkr
            · intro hgrow2 _
              exact absurd hgrow2 (by (try simp only [heightOf_node, heightOf_nil]); omega)
          · by_cases hbal2 : -1 ≤ heightOf l - heightOf (avlInsertGo nid r v).1
            · have hbb2 : heightOf l - heightOf (avlInsertGo nid r v).1 ≤ 1 := by
                omega
              rw [avlRebalanceIns_id hbb2 hbal2] at hstep1
              rw [hstep1]
              refine ⟨⟨rfl, hhl, ih_h⟩, ⟨by omega, by omega, hbl, ih_b⟩, ?_,
                ?_, ?_⟩
              · simp only [heightOf_node]; omega
              · intro hk
                rw [hkeyt] at hk
                exact absurd hk hkr
              · intro hgrow2 _
                simp only [heightOf_node] at hgrow2
                refine ⟨?_, ?_, ?_⟩
                · simp only [getBalance_node]; omega
                · simp only [getBalance_node, rootValue_node]
                  constructor
                  · intro hxa; omega
                  · intro hba; omega
                · simp only [getBalance_node, rootValue_node]
                  constructor
                  · intro _; omega
                  · intro _; exact hv2
            · have hbal3 : heightOf l - heightOf (avlInsertGo nid r v).1 = -2 := by
                omega
              have hrpos : 1 ≤ heightOf r := by omega
              have hrne : r ≠ .nil := by
                intro hre
                rw [hre] at hrpos
                simp [heightOf_nil] at hrpos
              obtain ⟨ihg0, ihg1, ihg2⟩ := ih_g (by omega) hrne
              rcases hr2 : (avlInsertGo nid r v).1 with _ | ⟨ri2, rx2, rh2, ra, rb⟩
              · rw [hr2] at hgrow
                simp only [heightOf_nil] at hgrow
                omega
              · rw [hr2] at hstep1 hgrow hbal3 ihg0 ihg1 ihg2 ih_h ih_b
                obtain ⟨ihh0, ihhra, ihhrb⟩ := ih_h
                obtain ⟨ihb1, ihb2, ihbra, ihbrb⟩ := ih_b
                have hann := heightOf_nonneg ra ihhra
                have hbnn := heightOf_nonneg rb ihhrb
                simp only [heightOf_node] at hgrow hbal3
                rcases Int.lt_or_lt_of_ne ihg0 with hsgn | hsgn
                · -- child leaning right: RR case
                  have hrvlt : (AVLT.node ri2 rx2 rh2 ra rb).rootValue < v := by
                    apply ihg2.mpr
                    simp only [getBalance_node] at hsgn ⊢
                    omega
                  have c1 : ¬(1 < getBalance (AVLT.node i x
                      (1 + max (heightOf l) (heightOf (AVLT.node ri2 rx2 rh2 ra rb)))
                      l (AVLT.node ri2 rx2 rh2 ra rb)) ∧ v < l.rootValue) :=
                    fun hc => absurd hc.1 (by simp only [getBalance_node, heightOf_node]; omega)
                  have c2 : (getBalance (AVLT.node i x
                      (1 + max (heightOf l) (heightOf (AVLT.node ri2 rx2 rh2 ra rb)))
                      l (AVLT.node ri2 rx2 rh2 ra rb)) < -1 ∧
                      (AVLT.node ri2 rx2 rh2 ra rb).rootValue < v) :=
                    ⟨by simp only [getBalance_node, heightOf_node]; omega, hrvlt⟩
                  rw [show avlRebalanceIns (AVLT.node i x
                      (1 + max (heightOf l) (heightOf (AVLT.node ri2 rx2 rh2 ra rb)))
                      l (AVLT.node ri2 rx2 rh2 ra rb)) v
                    = ((avlLeftRotate (AVLT.node i x
                        (1 + max (heightOf l) (heightOf (AVLT.node ri2 rx2 rh2 ra rb)))
                        l (AVLT.node ri2 rx2 rh2 ra rb))).1,
                      ⟨.rebalance, some i⟩ ::
                        (avlLeftRotate (AVLT.node i x
                          (1 + max (heightOf l) (heightOf (AVLT.node ri2 rx2 rh2 ra rb)))
                          l (AVLT.node ri2 rx2 rh2 ra rb))).2)
                    from by simp only [avlRebalanceIns, if_neg c1, if_pos c2]]
                    at hstep1
                  simp only [avlLeftRotate, heightOf_node] at hstep1
                  rw [hstep1]
                  simp only [getBalance_node] at hsgn
                  try simp only [heightOf_node] at ihh0 ihb1 ihb2
                  refine ⟨?_, ?_, ?_, ?_, ?_⟩
                  · exact ⟨by (try simp only [heightOf_node, heightOf_nil]); omega,
                      ⟨by (try simp only [heightOf_node, heightOf_nil]); omega, hhl, ihhra⟩, ihhrb⟩
                  · exact ⟨by (try simp only [heightOf_node, heightOf_nil]); omega,
                      by (try simp only [heightOf_node, heightOf_nil]); omega,
                      ⟨by (try simp only [heightOf_node, heightOf_nil]); omega,
                        by (try simp only [heightOf_node, heightOf_nil]); omega, hbl, ihbra⟩, ihbrb⟩
                  · exact Or.inl (by (try simp only [heightOf_node, heightOf_nil]); omega)
                  · intro hk
                    rw [hkeyt] at hk
                    exact absurd hk hkr
                  · intro hgrow2 _
                    exact absurd hgrow2 (by (try simp only [heightOf_node, heightOf_nil]); omega)
                · -- child leaning left: RL case
                  have hvlt : v < (AVLT.node ri2 rx2 rh2 ra rb).rootValue := by
                    apply ihg1.mpr
                    simp only [getBalance_node] at hsgn ⊢
                    omega
                  have c1 : ¬(1 < getBalance (AVLT.node i x
                      (1 + max (heightOf l) (heightOf (AVLT.node ri2 rx2 rh2 ra rb)))
                      l (AVLT.node ri2 rx2 rh2 ra rb)) ∧ v < l.rootValue) :=
                    fun hc => absurd hc.1 (by simp only [getBalance_node, heightOf_node]; omega)
                  have c2 : ¬(getBalance (AVLT.node i x
                      (1 + max (heightOf l) (heightOf (AVLT.node ri2 rx2 rh2 ra rb)))
                      l (AVLT.node ri2 rx2 rh2 ra rb)) < -1 ∧
                      (AVLT.node ri2 rx2 rh2 ra rb).rootValue < v) :=
                    fun hc => absurd hc.2 (by omega)
                  have c3 : ¬(1 < getBalance (AVLT.node i x
                      (1 + max (heightOf l) (heightOf (AVLT.node ri2 rx2 rh2 ra rb)))
                      l (AVLT.node ri2 rx2 rh2 ra rb)) ∧ l.rootValue < v) :=
                    fun hc => absurd hc.1 (by simp only [getBalance_node, heightOf_node]; omega)
                  have c4 : (getBalance (AVLT.node i x
                      (1 + max (heightOf l) (heightOf (AVLT.node ri2 rx2 rh2 ra rb)))
                      l (AVLT.node ri2 rx2 rh2 ra rb)) < -1 ∧
                      v < (AVLT.node ri2 rx2 rh2 ra rb).rootValue) :=
                    ⟨by simp only [getBalance_node, heightOf_node]; omega, hvlt⟩
                  rw [show avlRebalanceIns (AVLT.node i x
                      (1 + max (heightOf l) (heightOf (AVLT.node ri2 rx2 rh2 ra rb)))
                      l (AVLT.node ri2 rx2 rh2 ra rb)) v
                    = ((avlLeftRotate (AVLT.node i x
                        (1 + max (heightOf l) (heightOf (AVLT.node ri2 rx2 rh2 ra rb)))
                        l (avlRightRotate (AVLT.node ri2 rx2 rh2 ra rb)).1)).1,
                      ⟨.rebalance, some i⟩ ::
                        ((avlRightRotate (AVLT.node ri2 rx2 rh2 ra rb)).2 ++
                          (avlLeftRotate (AVLT.node i x
                            (1 + max (heightOf l) (heightOf (AVLT.node ri2 rx2 rh2 ra rb)))
                            l (avlRightRotate (AVLT.node ri2 rx2 rh2 ra rb)).1)).2))
                    from by
                      simp only [avlRebalanceIns, if_neg c1, if_neg c2, if_neg c3,
                        if_pos c4]] at hstep1
                  rcases ra with _ | ⟨ai, ax, ah2, aa, ab⟩
                  · simp only [getBalance_node, heightOf_nil] at hsgn
                    omega
                  · obtain ⟨ah0, ahaa, ahab⟩ := ihhra
                    obtain ⟨ab1, ab2, abaa, abab⟩ := ihbra
                    have haa_nn := heightOf_nonneg aa ahaa
                    have hab_nn := heightOf_nonneg ab ahab
                    simp only [avlRightRotate, avlLeftRotate, heightOf_node] at hstep1
                    rw [hstep1]
                    simp only [getBalance_node] at hsgn
                    try simp only [heightOf_node] at ihh0 ihb1 ihb2 ah0 ab1 ab2 hsgn
                    refine ⟨?_, ?_, ?_, ?_, ?_⟩
                    · exact ⟨by (try simp only [heightOf_node, heightOf_nil]); omega,
                        ⟨by (try simp only [heightOf_node, heightOf_nil]); omega, hhl, ahaa⟩,
                        ⟨by (try simp only [heightOf_node, heightOf_nil]); omega, ahab, ihhrb⟩⟩
                    · exact ⟨by (try simp only [heightOf_node, heightOf_nil]); omega,
                        by (try simp only [heightOf_node, heightOf_nil]); omega,
                        ⟨by (try simp only [heightOf_node, heightOf_nil]); omega,
                          by (try simp only [heightOf_node, heightOf_nil]); omega, hbl, abaa⟩,
                        ⟨by (try simp only [heightOf_node, heightOf_nil]); omega,
                          by (try simp only [heightOf_node, heightOf_nil]); omega, abab, ihbrb⟩⟩
                    · exact Or.inl (by (try simp only [heightOf_node, heightOf_nil]); omega)
                    · intro hk
                      rw [hkeyt] at hk
                      exact absurd hk hkr
                    · intro hgrow2 _
                      exact absurd hgrow2 (by (try simp only [heightOf_node, heightOf_nil]); omega)
      · -- duplicate at this node
        have hvx : v = x := by omega
        have hstep1 : (avlInsertGo nid (AVLT.node i x h l r) v).1
            = AVLT.node i x h l r := by
          simp only [avlInsertGo, if_neg hv, if_neg hv2]
        rw [hstep1]
        exact ⟨⟨hh0, hhl, hhr⟩, ⟨hb1, hb2, hbl, hbr⟩, Or.inl rfl, fun _ => rfl,
          fun hgrow _ => absurd hgrow (by (try simp only [heightOf_node, heightOf_nil]); omega)⟩

/-! ## Support lemmas for the claims -/

lemma allRB_iff : ∀ (t : RBT) (p : Int → Prop),
    allRB t p ↔ ∀ k, rbKeyIn t k = true → p k := by
  intro t
  induction t with
  | nil => simp [allRB, rbKeyIn]
  | node i c l x r ihl ihr =>
    intro p
    simp only [allRB, rbKeyIn, ihl, ihr, Bool.or_eq_true, decide_eq_true_eq]
    constructor
    · rintro ⟨hx, hl, hr⟩ k ((hk | hk) | hk)
      · exact hk ▸ hx
      · exact hl k hk
      · exact hr k hk
    · intro h
      exact ⟨h x (Or.inl (Or.inl rfl)),
        fun k hk => h k (Or.inl (Or.inr hk)),
        fun k hk => h k (Or.inr hk)⟩

/-- On a BST-ordered red-black tree, `searchNode`'s descent fails exactly
on absent keys. -/
lemma findZ_none_iff : ∀ (t : RBT) (v : Int) (path : List Ctx),
    sortedRB t → (findZ t v path = none ↔ rbKeyIn t v = false) := by
  intro t
  induction t with
  | nil => intro v path _; simp [findZ, rbKeyIn]
  | node i c l x r ihl ihr =>
    intro v path hs
    obtain ⟨hlx, hrx, hsl, hsr⟩ := hs
    by_cases hveq : v = x
    · subst hveq
      simp [findZ, rbKeyIn]
    · by_cases hv : v < x
      · have hnr : rbKeyIn r v = false := by
          rcases hkr : rbKeyIn r v with _ | _
          · rfl
          · exact absurd ((allRB_iff _ _).mp hrx v hkr) (by omega)
        simp only [findZ, if_neg hveq, if_pos hv]
        rw [ihl v _ hsl]
        simp [rbKeyIn, hveq, hnr]
      · have hnl : rbKeyIn l v = false := by
          rcases hkl : rbKeyIn l v with _ | _
          · rfl
          · exact absurd ((allRB_iff _ _).mp hlx v hkl) (by omega)
        simp only [findZ, if_neg hveq, if_neg hv]
        rw [ihr v _ hsr]
        simp [rbKeyIn, hveq, hnl]

/-- Applying any operation sequence through the public AVL entry points
keeps the tree sorted and tracks key liveness: a key is stored afterwards
exactly when the fold of the operations over its initial presence says
so. -/
lemma avlApply_keys : ∀ (ops : List TreeOp) (t : AVLTree),
    sortedA t.root →
    sortedA (avlApply t ops).root ∧
    ∀ k, (keyIn (avlApply t ops).root k = true ↔
      (ops.foldl (fun b op => match op with
        | .insOp j => if j = k then true else b
        | .delOp j => if j = k then false else b) (keyIn t.root k)) = true) := by
  intro ops
  induction ops with
  | nil => exact fun t hs => ⟨hs, fun k => Iff.rfl⟩
  | cons op rest ih =>
    intro t hs
    cases op with
    | insOp j =>
      obtain ⟨hs2, hk2⟩ := avlInsertGo_sorted_keys t.root t.nextID j hs
      have hroot : (avlInsert t j).1.root = (avlInsertGo t.nextID t.root j).1 :=
        rfl
      obtain ⟨ha1, ha2⟩ := ih (avlInsert t j).1 (by rw [hroot]; exact hs2)
      refine ⟨ha1, fun k => ?_⟩
      show keyIn (avlApply (avlInsert t j).1 rest).root k = true ↔ _
      rw [ha2 k]
      have hkey : keyIn (avlInsert t j).1.root k =
          (if j = k then true else keyIn t.root k) := by
        rw [hroot]
        by_cases hjk : j = k
        · simp only [if_pos hjk]
          exact (hk2 k).mpr (Or.inr hjk.symm)
        · simp only [if_neg hjk]
          rcases h2 : keyIn t.root k with _ | _
          · rcases h1 : keyIn (avlInsertGo t.nextID t.root j).1 k with _ | _
            · rfl
            · rcases (hk2 k).mp h1 with hk | hk
              · rw [h2] at hk; cases hk
              · exact absurd hk.symm hjk
          · exact (hk2 k).mpr (Or.inl h2)
      rw [hkey]
      simp only [List.foldl_cons]
    | delOp j =>
      obtain ⟨hs2, hk2⟩ := avlDeleteGo_sorted_keys t.root j hs
      by_cases hc : avlContainsLoop t.root j = true
      · have hroot : (avlDelete t j).1.root = (avlDeleteGo t.root j).1 := by
          simp [avlDelete, hc]
        obtain ⟨ha1, ha2⟩ := ih (avlDelete t j).1 (by rw [hroot]; exact hs2)
        refine ⟨ha1, fun k => ?_⟩
        show keyIn (avlApply (avlDelete t j).1 rest).root k = true ↔ _
        rw [ha2 k]
        have hkey : keyIn (avlDelete t j).1.root k =
            (if j = k then false else keyIn t.root k) := by
          rw [hroot]
          by_cases hjk : j = k
          · simp only [if_pos hjk]
            rcases h1 : keyIn (avlDeleteGo t.root j).1 k with _ | _
            · rfl
            · exact absurd hjk.symm ((hk2 k).mp h1).2
          · simp only [if_neg hjk]
            rcases h2 : keyIn t.root k with _ | _
            · rcases h1 : keyIn (avlDeleteGo t.root j).1 k with _ | _
              · rfl
              · have := ((hk2 k).mp h1).1
                rw [h2] at this
                cases this
            · exact (hk2 k).mpr ⟨h2, fun he => hjk he.symm⟩
        rw [hkey]
        simp only [List.foldl_cons]
      · have hroot : (avlDelete t j).1 = t := by
          simp [avlDelete, hc]
        have hnotin : keyIn t.root j = false := by
          rcases h2 : keyIn t.root j with _ | _
          · rfl
          · exact absurd ((avlContainsLoop_correct t.root j hs).mpr h2) hc
        obtain ⟨ha1, ha2⟩ := ih (avlDelete t j).1 (by rw [hroot]; exact hs)
        refine ⟨ha1, fun k => ?_⟩
        show keyIn (avlApply (avlDelete t j).1 rest).root k = true ↔ _
        rw [ha2 k]
        have hkey : keyIn (avlDelete t j).1.root k =
            (if j = k then false else keyIn t.root k) := by
          rw [hroot]
          by_cases hjk : j = k
          · simp only [if_pos hjk, ← hjk]
            exact hnotin
          · simp only [if_neg hjk]
        rw [hkey]
        simp only [List.foldl_cons]

/-- The public AVL Insert preserves the full invariant package. -/
lemma avlInsert_inv {t : AVLTree} (h : AvlInv t.root) (v : Int) :
    AvlInv ((avlInsert t v).1).root := by
  obtain ⟨hs, hh, hb⟩ := h
  obtain ⟨hs2, _⟩ := avlInsertGo_sorted_keys t.root t.nextID v hs
  obtain ⟨hh2, hb2, _⟩ := avlInsertGo_bal t.root t.nextID v hs hh hb
  exact ⟨hs2, hh2, hb2⟩

lemma avlInsertAll_inv (vs : List Int) : AvlInv (avlInsertAll vs).root := by
  suffices h : ∀ (t : AVLTree), AvlInv t.root →
      AvlInv (vs.foldl (fun t v => (avlInsert t v).1) t).root by
    exact h avlNew ⟨trivial, trivial, trivial⟩
  induction vs with
  | nil => exact fun t h => h
  | cons v vs ihv => exact fun t h => ihv _ (avlInsert_inv h v)

/-- A duplicate insert leaves the AVL tree and the id counter untouched
and emits only Compare steps. -/
lemma avlInsertGo_dup : ∀ (t : AVLT) (nid v : Int),
    sortedA t → hinv t → balancedA t → keyIn t v = true →
    avlInsertGo nid t v = (t, nid, (avlInsertGo nid t v).2.2) ∧
    (∀ s ∈ (avlInsertGo nid t v).2.2, s.type = .compare) := by
  intro t
  induction t with
  | nil =>
    intro nid v _ _ _ hk
    simp [keyIn] at hk
  | node i x h l r ihl ihr =>
    intro nid v hs hh hb hk
    obtain ⟨hlx, hrx, hsl, hsr⟩ := hs
    obtain ⟨hh0, hhl, hhr⟩ := hh
    obtain ⟨hb1, hb2, hbl, hbr⟩ := hb
    by_cases hv : v < x
    · have hkl : keyIn l v = true := by
        simp only [keyIn, Bool.or_eq_true, decide_eq_true_eq] at hk
        rcases hk with (hk | hk) | hk
        · omega
        · exact hk
        · exact absurd ((allKeys_iff _ _).mp hrx v hk) (by omega)
      obtain ⟨hrec, hsteps⟩ := ihl nid v hsl hhl hbl hkl
      have hl2 : (avlInsertGo nid l v).1 = l := congrArg Prod.fst hrec
      have hnid : (avlInsertGo nid l v).2.1 = nid := by
        rw [hrec]
      have hunf : avlInsertGo nid (AVLT.node i x h l r) v =
          ((avlRebalanceIns (.node i x
            (1 + max (heightOf (avlInsertGo nid l v).1) (heightOf r))
            (avlInsertGo nid l v).1 r) v).1,
           (avlInsertGo nid l v).2.1,
           [⟨.compare, some i⟩] ++ (avlInsertGo nid l v).2.2 ++
             (avlRebalanceIns (.node i x
               (1 + max (heightOf (avlInsertGo nid l v).1) (heightOf r))
               (avlInsertGo nid l v).1 r) v).2) := by
        simp only [avlInsertGo, if_pos hv]
      rw [hunf, hl2, hnid]
      rw [show (1 + max (heightOf l) (heightOf r)) = h from hh0.symm]
      rw [avlRebalanceIns_id hb2 hb1]
      refine ⟨rfl, fun s hsin => ?_⟩
      simp only [List.append_nil, List.cons_append, List.nil_append,
        List.mem_cons] at hsin
      rcases hsin with hsin | hsin
      · rw [hsin]
      · exact hsteps s hsin
    · by_cases hv2 : x < v
      · have hkr : keyIn r v = true := by
          simp only [keyIn, Bool.or_eq_true, decide_eq_true_eq] at hk
          rcases hk with (hk | hk) | hk
          · omega
          · exact absurd ((allKeys_iff _ _).mp hlx v hk) (by omega)
          · exact hk
        obtain ⟨hrec, hsteps⟩ := ihr nid v hsr hhr hbr hkr
        have hr2 : (avlInsertGo nid r v).1 = r := congrArg Prod.fst hrec
        have hnid : (avlInsertGo nid r v).2.1 = nid := by
          rw [hrec]
        have hunf : avlInsertGo nid (AVLT.node i x h l r) v =
            ((avlRebalanceIns (.node i x
              (1 + max (heightOf l) (heightOf (avlInsertGo nid r v).1))
              l (avlInsertGo nid r v).1) v).1,
             (avlInsertGo nid r v).2.1,
             [⟨.compare, some i⟩] ++ (avlInsertGo nid r v).2.2 ++
               (avlRebalanceIns (.node i x
                 (1 + max (heightOf l) (heightOf (avlInsertGo nid r v).1))
                 l (avlInsertGo nid r v).1) v).2) := by
          simp only [avlInsertGo, if_neg hv, if_pos hv2]
        rw [hunf, hr2, hnid]
        rw [show (1 + max (heightOf l) (heightOf r)) = h from hh0.symm]
        rw [avlRebalanceIns_id hb2 hb1]
        refine ⟨rfl, fun s hsin => ?_⟩
        simp only [List.append_nil, List.cons_append, List.nil_append,
          List.mem_cons] at hsin
        rcases hsin with hsin | hsin
        · rw [hsin]
        · exact hsteps s hsin
      · have hunf : avlInsertGo nid (AVLT.node i x h l r) v =
            (AVLT.node i x h l r, nid, [⟨.compare, some i⟩]) := by
          simp only [avlInsertGo, if_neg hv, if_neg hv2]
        rw [hunf]
        exact ⟨rfl, fun s hsin => by
          simp only [List.mem_singleton] at hsin
          rw [hsin]⟩

/-! ## Benchmark lemmas -/

/-- The element loop emits only `completed=false` partials and processes
exactly `min k n` elements when the stop signal becomes visible at index
`k`. -/
lemma benchmarkHashMapGo_spec : ∀ (rest : List Int) (op : BOp) (k ri total : Nat)
    (mem : Nat → Nat) (i : Nat) (m : List (Int × Int)) (acc : List BRes),
    (∀ b ∈ acc, b.completed = false) →
    (∀ b ∈ (benchmarkHashMapGo op (some k) ri total mem i rest m acc).1,
      b.completed = false) ∧
    (benchmarkHashMapGo op (some k) ri total mem i rest m acc).2
      = min (max i k) (i + rest.length) := by
  intro rest
  induction rest with
  | nil =>
    intro op k ri total mem i m acc hacc
    refine ⟨fun b hb => hacc b hb, ?_⟩
    simp only [benchmarkHashMapGo, List.length_nil]
    omega
  | cons v rest ihv =>
    intro op k ri total mem i m acc hacc
    by_cases hstop : stopSeen (some k) i = true
    · have hk : k ≤ i := by simpa [stopSeen] using hstop
      refine ⟨fun b hb => ?_, ?_⟩
      · simp only [benchmarkHashMapGo, if_pos hstop] at hb
        exact hacc b hb
      · simp only [benchmarkHashMapGo, if_pos hstop, List.length_cons]
        omega
    · have hk : i < k := by
        simp only [stopSeen, decide_eq_true_eq] at hstop
        omega
      have hacc2 : ∀ b ∈ (if 0 < i ∧ i % ri = 0 then
          acc ++ [⟨"hashmap", (i * 100) / total, mem i, false⟩] else acc),
          b.completed = false := by
        split
        · intro b hb
          rcases List.mem_append.mp hb with hb | hb
          · exact hacc b hb
          · simp only [List.mem_singleton] at hb
            rw [hb]
        · exact hacc
      cases op with
      | insertOp =>
        have hrec := ihv .insertOp k ri total mem (i + 1) ((v, v) :: m)
          (if 0 < i ∧ i % ri = 0 then
            acc ++ [⟨"hashmap", (i * 100) / total, mem i, false⟩] else acc) hacc2
        have hunf : benchmarkHashMapGo .insertOp (some k) ri total mem i
            (v :: rest) m acc
            = benchmarkHashMapGo .insertOp (some k) ri total mem (i + 1) rest
              ((v, v) :: m)
              (if 0 < i ∧ i % ri = 0 then
                acc ++ [⟨"hashmap", (i * 100) / total, mem i, false⟩] else acc) := by
          simp only [benchmarkHashMapGo, if_neg hstop]
        rw [hunf]
        refine ⟨hrec.1, ?_⟩
        rw [hrec.2]
        simp only [List.length_cons]
        omega
      | searchOp =>
        have hrec := ihv .searchOp k ri total mem (i + 1) m
          (if 0 < i ∧ i % ri = 0 then
            acc ++ [⟨"hashmap", (i * 100) / total, mem i, false⟩] else acc) hacc2
        have hunf : benchmarkHashMapGo .searchOp (some k) ri total mem i
            (v :: rest) m acc
            = benchmarkHashMapGo .searchOp (some k) ri total mem (i + 1) rest m
              (if 0 < i ∧ i % ri = 0 then
                acc ++ [⟨"hashmap", (i * 100) / total, mem i, false⟩] else acc) := by
          simp only [benchmarkHashMapGo, if_neg hstop]
        rw [hunf]
        refine ⟨hrec.1, ?_⟩
        rw [hrec.2]
        simp only [List.length_cons]
        omega

/-! ## Relaxation lemmas -/

lemma relaxOne_visited {u : String} {st : DState} {e : GEdge}
    (h : st.visited.contains e.dst = true) : relaxOne u st e = st := by
  simp only [relaxOne, if_pos h]

lemma relaxOne_unvisited {u : String} {st : DState} {e : GEdge}
    (h : st.visited.contains e.dst = false) :
    (relaxOne u st e).steps = st.steps ++
      [⟨(if lookupD st.dist u + e.weight < lookupD st.dist e.dst then
          .updateDist else .compare), [], some (u, e.dst), st.visited⟩] ∧
    (relaxOne u st e).visited = st.visited ∧
    (lookupD st.dist u + e.weight < lookupD st.dist e.dst →
      (relaxOne u st e).pq =
        heapPush st.pq (e.dst, lookupD st.dist u + e.weight)) ∧
    (¬ lookupD st.dist u + e.weight < lookupD st.dist e.dst →
      (relaxOne u st e).pq = st.pq ∧ (relaxOne u st e).dist = st.dist) := by
  have hcond : ¬ (st.visited.contains e.dst = true) := by
    rw [h]
    exact Bool.false_ne_true
  by_cases himp : lookupD st.dist u + e.weight < lookupD st.dist e.dst
  · refine ⟨?_, ?_, fun _ => ?_, fun hc => absurd himp hc⟩ <;>
      simp only [relaxOne, if_neg hcond, if_pos himp]
  · refine ⟨?_, ?_, fun hc => absurd hc himp, fun _ => ⟨?_, ?_⟩⟩ <;>
      simp only [relaxOne, if_neg hcond, if_neg himp]

/-- The relaxation phase emits exactly one step per examined edge whose
target is not yet visited, and leaves the visited set unchanged. -/
lemma relaxFold_count : ∀ (es : List GEdge) (u : String) (st : DState),
    (es.foldl (relaxOne u) st).steps.length =
      st.steps.length + (es.filter (fun e => !st.visited.contains e.dst)).length ∧
    (es.foldl (relaxOne u) st).visited = st.visited := by
  intro es
  induction es with
  | nil => intro u st; exact ⟨by simp, rfl⟩
  | cons e rest ihv =>
    intro u st
    rcases hv : st.visited.contains e.dst with _ | _
    · obtain ⟨h1, h2, _, _⟩ := relaxOne_unvisited hv
      obtain ⟨c1, c2⟩ := ihv u (relaxOne u st e)
      rw [h2] at c1 c2
      have hkeep : (!st.visited.contains e.dst) = true := by rw [hv]; rfl
      refine ⟨?_, ?_⟩
      · rw [List.foldl_cons, c1, h1, List.filter_cons, if_pos hkeep]
        simp only [List.length_append, List.length_cons, List.length_nil]
        omega
      · rw [List.foldl_cons, c2]
    · obtain ⟨c1, c2⟩ := ihv u st
      have hdrop : ¬ ((!st.visited.contains e.dst) = true) := by
        rw [hv]
        exact Bool.false_ne_true
      rw [show (e :: rest).foldl (relaxOne u) st = rest.foldl (relaxOne u) st
        from by rw [List.foldl_cons, relaxOne_visited hv]]
      refine ⟨?_, c2⟩
      rw [c1, List.filter_cons, if_neg hdrop]

/-! ## Claim theorems -/

/-- C2: Confirmed.  After any finite sequence of inserts into an initially
empty red-black tree, the root is black, no red node has a red child, and
every root-to-sentinel path passes through the same number of black nodes
(the black height is well defined).  Every prefix of a sequence is again a
sequence, so this holds after each individual `Insert` returns. -/
theorem c2_rb_invariants_after_inserts (vs : List Int) :
    (rbInsertAll vs).root.rootColor = .black ∧
    RedSep (rbInsertAll vs).root ∧
    ∃ n, bh (rbInsertAll vs).root = some n :=
  rbInsertAll_valid vs

/-- C6: Confirmed.  After any finite sequence of inserts into an initially
empty AVL tree, every node satisfies `Height = 1 + max(child heights)`
with absent children contributing height 0 (`hinv`), and every balance
factor `height(left) - height(right)` lies in [-1, 1] (`balancedA`).
Every prefix of a sequence is again a sequence, so this holds after each
individual `Insert` returns. -/
theorem c6_avl_invariants_after_inserts (vs : List Int) :
    hinv (avlInsertAll vs).root ∧ balancedA (avlInsertAll vs).root :=
  ⟨(avlInsertAll_inv vs).2.1, (avlInsertAll_inv vs).2.2⟩

/-- C8: Confirmed.  On the concrete scenario graph (nodes A, B, C, D;
undirected edges A-B 4, A-C 2, C-B 1, B-D 5, C-D 8), `Dijkstra(A, D)`
succeeds with total distance 8 and its final step is the Complete step
carrying the reconstructed path [A, C, B, D]. -/
theorem c8_scenario_dijkstra :
    (scenarioGraph.dijkstra "A" "D").1 = true ∧
    (scenarioGraph.dijkstra "A" "D").2.1 = some 8 ∧
    ((scenarioGraph.dijkstra "A" "D").2.2.getLast?).map
      (fun s => (s.type, s.path)) = some (.complete, ["A", "C", "B", "D"]) := by
  exact ⟨rfl, rfl, rfl⟩

/-- C10: Confirmed.  The final result's `memoryUsed` is the uint64
difference `endAlloc - startAlloc` of the two allocator readings; when the
end reading is below the start reading the subtraction wraps modulo 2^64,
reporting the enormous value `2^64 - (startAlloc - endAlloc)` instead of
zero or a negative delta. -/
theorem c10_memory_used_wraps (op : BOp) (data : List Int)
    (stopAt : Option Nat) (sa ea : Nat) (mem : Nat → Nat)
    (hlt : ea < sa) (hsa : sa < 2 ^ 64) :
    (runSingleBenchmark op data stopAt sa ea mem).1.getLast? =
      some ⟨"hashmap", 100, usub64 ea sa, true⟩ ∧
    usub64 ea sa = 2 ^ 64 - (sa - ea) := by
  refine ⟨List.getLast?_concat _, ?_⟩
  show (ea + 2 ^ 64 - sa % 2 ^ 64) % 2 ^ 64 = 2 ^ 64 - (sa - ea)
  omega

/-- C10 witness: a run whose allocator reading drops from 1000 to 900
bytes reports `memoryUsed = 2^64 - 100 = 18446744073709551516`. -/
theorem c10_memory_used_wraps_witness :
    (runSingleBenchmark .insertOp [1, 2, 3] none 1000 900
      (fun _ => 0)).1.getLast? =
      some ⟨"hashmap", 100, usub64 900 1000, true⟩ ∧
    usub64 900 1000 = 18446744073709551516 := by
  have h := c10_memory_used_wraps .insertOp [1, 2, 3] none 1000 900
    (fun _ => 0) (by decide) (by decide)
  exact ⟨h.1, by rw [h.2]; rfl⟩

/-- C1 counterexample: the red-black half of the claim is false.  The
source `RedBlackTree.Insert` has no duplicate check (an equal key descends
right), so inserting 5 twice stores a second node: the tree grows from one
node to two, both holding the key 5. -/
theorem c1_counterexample_rb_duplicate_stored :
    (rbInsertAll [5]).root.size = 1 ∧
    (rbInsertAll [5, 5]).root.size = 2 ∧
    RBT.keyCount (rbInsertAll [5, 5]).root 5 = 2 := by
  decide

/-- C1: Corrected.  The AVL half of the claim holds: on a tree satisfying
the AVL invariants, inserting an already-stored key leaves the tree and
the id counter unchanged, and the emitted trace is the Insert marker,
Compare steps only (one per node on the descent, ending with the one that
discovers equality), and the closing Complete marker — no structural
steps.  The red-black half is refuted by the counterexample: the source
`RedBlackTree.Insert` stores duplicates. -/
theorem c1_avl_duplicate_insert_noop (t : AVLTree) (v : Int)
    (hs : sortedA t.root) (hh : hinv t.root) (hb : balancedA t.root)
    (hk : keyIn t.root v = true) :
    (avlInsert t v).1 = t ∧
    ∃ comps, ((avlInsert t v).2 =
        ⟨.insert, none⟩ :: comps ++ [⟨.complete, none⟩] ∧
      ∀ s ∈ comps, s.type = .compare) := by
  obtain ⟨hrec, hsteps⟩ := avlInsertGo_dup t.root t.nextID v hs hh hb hk
  have h1 : (avlInsertGo t.nextID t.root v).1 = t.root :=
    congrArg Prod.fst hrec
  have h2 : (avlInsertGo t.nextID t.root v).2.1 = t.nextID := by
    rw [hrec]
  constructor
  · show (⟨(avlInsertGo t.nextID t.root v).1,
      (avlInsertGo t.nextID t.root v).2.1⟩ : AVLTree) = t
    rw [h1, h2]
  · exact ⟨(avlInsertGo t.nextID t.root v).2.2, rfl, hsteps⟩

/-- C1 witness: re-inserting 5 into the AVL tree built from [10, 5] is a
no-op whose trace is Insert, two Compares, Complete. -/
theorem c1_avl_duplicate_insert_noop_witness :
    (avlInsert (avlInsertAll [10, 5]) 5).1 = avlInsertAll [10, 5] ∧
    ∃ comps, ((avlInsert (avlInsertAll [10, 5]) 5).2 =
        ⟨.insert, none⟩ :: comps ++ [⟨.complete, none⟩] ∧
      ∀ s ∈ comps, s.type = .compare) :=
  c1_avl_duplicate_insert_noop (avlInsertAll [10, 5]) 5
    (by decide) (by decide) (by decide) (by decide)

/-- C3 counterexample: a worker that sees the stop signal before its first
element processes none of the 5 dataset elements, yet still emits a result
with `completed = true` — `runSingleBenchmark` emits the final completed
result unconditionally after the inner loop returns. -/
theorem c3_counterexample_completed_after_stop :
    (runSingleBenchmark .insertOp [1, 2, 3, 4, 5] (some 0) 1000 900
      (fun _ => 0)).2 = 0 ∧
    (0 : Nat) < [1, 2, 3, 4, 5].length ∧
    ∃ r ∈ (runSingleBenchmark .insertOp [1, 2, 3, 4, 5] (some 0) 1000 900
      (fun _ => 0)).1, r.completed = true := by
  decide

/-- C3: Corrected.  The inner element loop does check the stop signal
before every element and, once the signal is visible at index k, exits
having processed exactly `min k (data length)` elements and having emitted
partial results with `completed = false` only.  But the claim's
conclusion fails: `runSingleBenchmark` emits the final `completed = true`
result unconditionally after the loop returns, so exactly one completed
result appears even for a worker stopped mid-run (and it is the last
result emitted). -/
theorem c3_stop_skips_elements_but_final_emitted (op : BOp)
    (data : List Int) (k : Nat) (sa ea : Nat) (mem : Nat → Nat) :
    (runSingleBenchmark op data (some k) sa ea mem).2 = min k data.length ∧
    ((runSingleBenchmark op data (some k) sa ea mem).1.filter
      (fun b => b.completed)).length = 1 ∧
    (runSingleBenchmark op data (some k) sa ea mem).1.getLast? =
      some ⟨"hashmap", 100, usub64 ea sa, true⟩ := by
  obtain ⟨hall, hcnt⟩ := benchmarkHashMapGo_spec data op k
    (if data.length / 20 < 1 then 1 else data.length / 20) data.length mem
    0 [] [] (by intro b hb; simp at hb)
  have hnil : (benchmarkHashMapGo op (some k)
      (if data.length / 20 < 1 then 1 else data.length / 20) data.length mem
      0 data [] []).1.filter (fun b => b.completed) = [] := by
    rw [List.eq_nil_iff_forall_not_mem]
    intro b hb
    obtain ⟨hb1, hb2⟩ := List.mem_filter.mp hb
    rw [hall b hb1] at hb2
    exact Bool.false_ne_true hb2
  refine ⟨?_, ?_, ?_⟩
  · show (benchmarkHashMapGo op (some k)
      (if data.length / 20 < 1 then 1 else data.length / 20) data.length mem
      0 data [] []).2 = min k data.length
    rw [hcnt]
    omega
  · show (((benchmarkHashMapGo op (some k)
      (if data.length / 20 < 1 then 1 else data.length / 20) data.length mem
      0 data [] []).1 ++ [(⟨"hashmap", 100, usub64 ea sa, true⟩ : BRes)]).filter
        (fun b => b.completed)).length = 1
    rw [List.filter_append, hnil]
    rfl
  · exact List.getLast?_concat _

/-- C4 counterexample: the red-black half of the claim is false because
`Insert` stores duplicates.  After Insert(5), Insert(5), Delete(5) the key
5 is not live (it was deleted after its last insert), yet Search(5) still
succeeds with a Found trace, because the delete removed only one of the
two stored copies. -/
theorem c4_counterexample_rb_search_after_delete :
    liveKey 5 [.insOp 5, .insOp 5, .delOp 5] = false ∧
    (rbSearch (rbApply rbNew [.insOp 5, .insOp 5, .delOp 5]) 5).1 = true ∧
    (rbSearch (rbApply rbNew [.insOp 5, .insOp 5, .delOp 5]) 5).2 =
      [⟨.compare, some 1⟩, ⟨.found, some 1⟩] := by
  decide

/-- C4: Corrected.  The AVL half of the claim holds: for every finite
interleaving of Insert and Delete on the initially empty AVL tree,
Search(k) succeeds exactly when k was inserted and not subsequently
deleted; a successful search's trace ends in a Found step and a failed
one's in a NotFound step.  The red-black half is refuted by the
counterexample: duplicate inserts break the correspondence. -/
theorem c4_avl_search_tracks_live_keys (ops : List TreeOp) (k : Int) :
    ((avlSearch (avlApply avlNew ops) k).1 = true ↔ liveKey k ops = true) ∧
    ((avlSearch (avlApply avlNew ops) k).1 = true →
      ∃ pre j, (avlSearch (avlApply avlNew ops) k).2 =
        pre ++ [⟨.found, some j⟩]) ∧
    ((avlSearch (avlApply avlNew ops) k).1 = false →
      ∃ pre, (avlSearch (avlApply avlNew ops) k).2 =
        pre ++ [⟨.notFound, none⟩]) := by
  obtain ⟨hsF, hkeys⟩ := avlApply_keys ops avlNew trivial
  have htr := avlSearchGo_trace (avlApply avlNew ops).root k []
  refine ⟨?_, ?_, ?_⟩
  · rw [show (avlSearch (avlApply avlNew ops) k).1 =
      (avlSearchGo (avlApply avlNew ops).root k []).1 from rfl]
    rw [avlSearchGo_correct (avlApply avlNew ops).root k [] hsF, hkeys k]
    exact Iff.rfl
  · intro h
    rcases htr.1 h with ⟨pre, j, hpre⟩
    exact ⟨pre, j, by simpa using hpre⟩
  · intro h
    rcases htr.2 h with ⟨pre, hpre⟩
    exact ⟨pre, by simpa using hpre⟩

/-- C4 witness: after Insert(3), Delete(3), Insert(7) the key 7 is live,
so Search(7) succeeds and its trace ends in a Found step. -/
theorem c4_avl_search_tracks_live_keys_witness :
    ∃ pre j, (avlSearch (avlApply avlNew
        [.insOp 3, .delOp 3, .insOp 7]) 7).2 = pre ++ [⟨.found, some j⟩] :=
  (c4_avl_search_tracks_live_keys [.insOp 3, .delOp 3, .insOp 7] 7).2.1
    ((c4_avl_search_tracks_live_keys [.insOp 3, .delOp 3, .insOp 7] 7).1.mpr
      (by decide))

/-- C5 counterexample: on the line graph A-B(1), B-C(1) the run
Dijkstra(A, C) selects A, B, C in turn; the relaxation phases of A and B
examine 1 + 2 = 3 edges (B's adjacency list holds both B-A and B-C), but
the trace holds only two relaxation steps — the edge from B back to the
already-visited A is skipped without emitting any step, refuting "exactly
one step per examined edge". -/
theorem c5_counterexample_visited_edge_skipped :
    (lineGraph.adj "A").length = 1 ∧
    (lineGraph.adj "B").length = 2 ∧
    ((lineGraph.dijkstra "A" "C").2.2.map (fun s => s.type)) =
      [.visit, .selectNode, .updateDist, .selectNode, .updateDist,
       .selectNode, .complete] := by
  exact ⟨rfl, rfl, rfl⟩

/-- C5: Corrected.  The per-edge step contract holds only for edges whose
target is not yet visited: the relaxation phase after selecting `u` emits
exactly one step per such edge (and no step for an edge to a visited
node), and for an unvisited target the step is Update-Distance with a
re-push of the neighbor when the new tentative distance improves on the
current one, and Compare when it does not. -/
theorem c5_relax_steps_per_unvisited_edge (g : Graph) (u : String)
    (st : DState) :
    ((relaxAll g u st).steps.length = st.steps.length +
      ((g.adj u).filter (fun e => !st.visited.contains e.dst)).length) ∧
    ∀ e : GEdge, st.visited.contains e.dst = false →
      ((relaxOne u st e).steps = st.steps ++
        [⟨(if lookupD st.dist u + e.weight < lookupD st.dist e.dst then
            .updateDist else .compare), [], some (u, e.dst), st.visited⟩]) ∧
      (lookupD st.dist u + e.weight < lookupD st.dist e.dst →
        (relaxOne u st e).pq =
          heapPush st.pq (e.dst, lookupD st.dist u + e.weight)) ∧
      (¬ lookupD st.dist u + e.weight < lookupD st.dist e.dst →
        (relaxOne u st e).pq = st.pq) := by
  refine ⟨(relaxFold_count (g.adj u) u st).1, fun e he => ?_⟩
  obtain ⟨h1, _, h3, h4⟩ := relaxOne_unvisited he
  exact ⟨h1, h3, fun hc => (h4 hc).1⟩

/-- C5 witness: relaxing the edge A-B(1) from A, with B unvisited and at
the infinite tentative distance, emits the Update-Distance step. -/
theorem c5_relax_steps_per_unvisited_edge_witness :
    (relaxOne "A" ⟨[("A", 0), ("B", 2147483647)], [], ["A"], [], []⟩
      ⟨"B", 1⟩).steps = [⟨.updateDist, [], some ("A", "B"), ["A"]⟩] := by
  have h := (c5_relax_steps_per_unvisited_edge lineGraph "A"
    ⟨[("A", 0), ("B", 2147483647)], [], ["A"], [], []⟩).2 ⟨"B", 1⟩ (by decide)
  rw [h.1]
  decide

/-- C7: Confirmed.  Deleting an absent key from either tree fails without
mutating anything: the red-black `Delete` returns the tree unchanged with
`success = false` and the single-step NotFound trace, the AVL `Delete`
returns the tree unchanged with `success = false` and the Delete-marker
followed by NotFound trace, and in both cases the snapshot after the call
is identical to the snapshot before it. -/
theorem c7_delete_absent_unchanged (trb : RedBlackTree) (tav : AVLTree)
    (v w : Int) (h1 : sortedRB trb.root) (h2 : rbKeyIn trb.root v = false)
    (h3 : sortedA tav.root) (h4 : keyIn tav.root w = false) :
    rbDelete trb v = (trb, false, [⟨.notFound, none⟩]) ∧
    rbSnapshot (rbDelete trb v).1.root = rbSnapshot trb.root ∧
    avlDelete tav w = (tav, false, [⟨.delete, none⟩, ⟨.notFound, none⟩]) ∧
    avlSnapshot (avlDelete tav w).1.root = avlSnapshot tav.root := by
  have hnone : findZ trb.root v [] = none :=
    (findZ_none_iff trb.root v [] h1).mpr h2
  have hrb : rbDelete trb v = (trb, false, [⟨.notFound, none⟩]) := by
    simp only [rbDelete, hnone]
  have hcF : avlContainsLoop tav.root w = false := by
    rcases hc : avlContainsLoop tav.root w with _ | _
    · rfl
    · exact absurd ((avlContainsLoop_correct tav.root w h3).mp hc)
        (by simp [h4])
  have hav : avlDelete tav w =
      (tav, false, [⟨.delete, none⟩, ⟨.notFound, none⟩]) := by
    simp [avlDelete, hcF]
  exact ⟨hrb, by rw [hrb], hav, by rw [hav]⟩

/-- C7 witness: deleting the absent key 5 from the two-element trees built
from [10, 20] fails and leaves both trees and snapshots unchanged. -/
theorem c7_delete_absent_unchanged_witness :
    rbDelete (rbInsertAll [10, 20]) 5 =
      (rbInsertAll [10, 20], false, [⟨.notFound, none⟩]) ∧
    rbSnapshot (rbDelete (rbInsertAll [10, 20]) 5).1.root =
      rbSnapshot (rbInsertAll [10, 20]).root ∧
    avlDelete (avlInsertAll [10, 20]) 5 =
      (avlInsertAll [10, 20], false, [⟨.delete, none⟩, ⟨.notFound, none⟩]) ∧
    avlSnapshot (avlDelete (avlInsertAll [10, 20]) 5).1.root =
      avlSnapshot (avlInsertAll [10, 20]).root :=
  c7_delete_absent_unchanged (rbInsertAll [10, 20]) (avlInsertAll [10, 20])
    5 5 (by decide) (by decide) (by decide) (by decide)

/-- C9: Confirmed.  In every insert-fixup iteration with a red parent and
a black (or absent) uncle — the cases that restructure — the emitted trace
contains the color-change step immediately followed by the rotation step
at the grandparent, in that order (Case 3 recolors parent and grandparent
and then right-rotates at the grandparent; the mirror case recolors and
then left-rotates).  This also covers the Case 2 inner-child entries,
which fall through to Case 3 after their preliminary rotation at the
parent. -/
theorem c9_recolor_precedes_rotate (z : RBT) (p g : Ctx) (rest : List Ctx)
    (steps : List TStep) (hz : z ≠ .nil) (hp : p.color = .red)
    (hu : g.sib.rootColor = .black) :
    ∃ pre suf j rt, (rt = StepType.rotateLeft ∨ rt = StepType.rotateRight) ∧
      (insertFixup z (p :: g :: rest) steps).2 =
        pre ++ [⟨.colorChange, j⟩, ⟨rt, some g.id⟩] ++ suf := by
  obtain ⟨pd, pid, pc, pv, psib⟩ := p
  obtain ⟨gd, gid, gc, gv, gsib⟩ := g
  have hpc : pc = Color.red := hp
  subst hpc
  cases z with
  | nil => exact absurd rfl hz
  | node zi zc zl zv zr =>
    cases gsib with
    | nil =>
      cases gd with
      | left =>
        cases pd with
        | left =>
          refine ⟨steps ++ [⟨.rebalance, some zi⟩],
            (blackenRoot (plug (.node pid .black (.node zi zc zl zv zr) pv
              (.node gid .red psib gv .nil)) rest)).2,
            some pid, .rotateRight, Or.inr rfl, ?_⟩
          show steps ++ [⟨.rebalance, some zi⟩, ⟨.colorChange, some pid⟩,
              ⟨.rotateRight, some gid⟩] ++
            (blackenRoot (plug (.node pid .black (.node zi zc zl zv zr) pv
              (.node gid .red psib gv .nil)) rest)).2 = _
          simp [List.append_assoc]
        | right =>
          refine ⟨steps ++ [⟨.rebalance, some pid⟩, ⟨.rotateLeft, some pid⟩,
              ⟨.rebalance, some pid⟩],
            (blackenRoot (plug (.node zi .black (.node pid .red psib pv zl)
              zv (.node gid .red zr gv .nil)) rest)).2,
            some zi, .rotateRight, Or.inr rfl, ?_⟩
          show steps ++ [⟨.rebalance, some pid⟩, ⟨.rotateLeft, some pid⟩] ++
              [⟨.rebalance, some pid⟩, ⟨.colorChange, some zi⟩,
               ⟨.rotateRight, some gid⟩] ++
            (blackenRoot (plug (.node zi .black (.node pid .red psib pv zl)
              zv (.node gid .red zr gv .nil)) rest)).2 = _
          simp [List.append_assoc]
      | right =>
        cases pd with
        | right =>
          refine ⟨steps ++ [⟨.rebalance, some zi⟩],
            (blackenRoot (plug (.node pid .black (.node gid .red .nil gv
              psib) pv (.node zi zc zl zv zr)) rest)).2,
            some pid, .rotateLeft, Or.inl rfl, ?_⟩
          show steps ++ [⟨.rebalance, some zi⟩, ⟨.colorChange, some pid⟩,
              ⟨.rotateLeft, some gid⟩] ++
            (blackenRoot (plug (.node pid .black (.node gid .red .nil gv
              psib) pv (.node zi zc zl zv zr)) rest)).2 = _
          simp [List.append_assoc]
        | left =>
          refine ⟨steps ++ [⟨.rebalance, some pid⟩, ⟨.rotateRight, some pid⟩,
              ⟨.rebalance, some pid⟩],
            (blackenRoot (plug (.node zi .black (.node gid .red .nil gv zl)
              zv (.node pid .red zr pv psib)) rest)).2,
            some zi, .rotateLeft, Or.inl rfl, ?_⟩
          show steps ++ [⟨.rebalance, some pid⟩, ⟨.rotateRight, some pid⟩] ++
              [⟨.rebalance, some pid⟩, ⟨.colorChange, some zi⟩,
               ⟨.rotateLeft, some gid⟩] ++
            (blackenRoot (plug (.node zi .black (.node gid .red .nil gv zl)
              zv (.node pid .red zr pv psib)) rest)).2 = _
          simp [List.append_assoc]
    | node ui uc ul uv ur =>
      have huc : uc = Color.black := hu
      subst huc
      cases gd with
      | left =>
        cases pd with
        | left =>
          refine ⟨steps ++ [⟨.rebalance, some zi⟩],
            (blackenRoot (plug (.node pid .black (.node zi zc zl zv zr) pv
              (.node gid .red psib gv (.node ui .black ul uv ur))) rest)).2,
            some pid, .rotateRight, Or.inr rfl, ?_⟩
          show steps ++ [⟨.rebalance, some zi⟩, ⟨.colorChange, some pid⟩,
              ⟨.rotateRight, some gid⟩] ++
            (blackenRoot (plug (.node pid .black (.node zi zc zl zv zr) pv
              (.node gid .red psib gv (.node ui .black ul uv ur))) rest)).2
            = _
          simp [List.append_assoc]
        | right =>
          refine ⟨steps ++ [⟨.rebalance, some pid⟩, ⟨.rotateLeft, some pid⟩,
              ⟨.rebalance, some pid⟩],
            (blackenRoot (plug (.node zi .black (.node pid .red psib pv zl)
              zv (.node gid .red zr gv (.node ui .black ul uv ur))) rest)).2,
            some zi, .rotateRight, Or.inr rfl, ?_⟩
          show steps ++ [⟨.rebalance, some pid⟩, ⟨.rotateLeft, some pid⟩] ++
              [⟨.rebalance, some pid⟩, ⟨.colorChange, some zi⟩,
               ⟨.rotateRight, some gid⟩] ++
            (blackenRoot (plug (.node zi .black (.node pid .red psib pv zl)
              zv (.node gid .red zr gv (.node ui .black ul uv ur))) rest)).2
            = _
          simp [List.append_assoc]
      | right =>
        cases pd with
        | right =>
          refine ⟨steps ++ [⟨.rebalance, some zi⟩],
            (blackenRoot (plug (.node pid .black (.node gid .red
              (.node ui .black ul uv ur) gv psib) pv
              (.node zi zc zl zv zr)) rest)).2,
            some pid, .rotateLeft, Or.inl rfl, ?_⟩
          show steps ++ [⟨.rebalance, some zi⟩, ⟨.colorChange, some pid⟩,
              ⟨.rotateLeft, some gid⟩] ++
            (blackenRoot (plug (.node pid .black (.node gid .red
              (.node ui .black ul uv ur) gv psib) pv
              (.node zi zc zl zv zr)) rest)).2 = _
          simp [List.append_assoc]
        | left =>
          refine ⟨steps ++ [⟨.rebalance, some pid⟩, ⟨.rotateRight, some pid⟩,
              ⟨.rebalance, some pid⟩],
            (blackenRoot (plug (.node zi .black (.node gid .red
              (.node ui .black ul uv ur) gv zl) zv
              (.node pid .red zr pv psib)) rest)).2,
            some zi, .rotateLeft, Or.inl rfl, ?_⟩
          show steps ++ [⟨.rebalance, some pid⟩, ⟨.rotateRight, some pid⟩] ++
              [⟨.rebalance, some pid⟩, ⟨.colorChange, some zi⟩,
               ⟨.rotateLeft, some gid⟩] ++
            (blackenRoot (plug (.node zi .black (.node gid .red
              (.node ui .black ul uv ur) gv zl) zv
              (.node pid .red zr pv psib)) rest)).2 = _
          simp [List.append_assoc]

/-- C9 witness: inserting below the red node 1 whose parent 0 is black
with no uncle (a Case 3 state), the fixup trace contains the color-change
step immediately followed by the rotation at the grandparent 0. -/
theorem c9_recolor_precedes_rotate_witness :
    ∃ pre suf j rt, (rt = StepType.rotateLeft ∨ rt = StepType.rotateRight) ∧
      (insertFixup (.node 2 .red .nil 1 .nil)
        [⟨.left, 1, .red, 5, .nil⟩, ⟨.left, 0, .black, 10, .nil⟩] []).2 =
        pre ++ [⟨.colorChange, j⟩, ⟨rt, some 0⟩] ++ suf :=
  c9_recolor_precedes_rotate (.node 2 .red .nil 1 .nil)
    ⟨.left, 1, .red, 5, .nil⟩ ⟨.left, 0, .black, 10, .nil⟩ [] []
    (by decide) rfl rfl

end StructTrace
